import Mathlib

/-!
Verification of the MQTT topic-matching and ACL-resolution core of the
`django_mqtt` repository (`django_mqtt/models.py`), shallowly embedded in
Lean 4.  Topic names are modelled as `List Char` (Python strings are
sequences of characters); Django query sets over the database are modelled
as explicit lists of rows passed to each operation.
-/

namespace DjangoMqtt

/-- Python's `str.split(sep)` for a single-character separator, generalised
to lists: `pySplit sep s` cuts `s` at every occurrence of `sep` and never
returns the empty list (splitting the empty string yields `[[]]`, as
`"".split(sep) == ['']` in Python). -/
def pySplit [DecidableEq α] (sep : α) : List α → List (List α)
  | [] => [[]]
  | c :: rest =>
    if c = sep then [] :: pySplit sep rest
    else
      match pySplit sep rest with
      | [] => [[c]]
      | h :: t => (c :: h) :: t

/-- Joining with a separator; inverse of `pySplit`. -/
def joinSep (sep : α) : List (List α) → List α
  | [] => []
  | [p] => p
  | p :: ps => p ++ sep :: joinSep sep ps

/-- Python's substring test `needle in hay` on strings. -/
def strIn (needle : List Char) : List Char → Bool
  | [] => needle.isEmpty
  | c :: t => needle.isPrefixOf (c :: t) || strIn needle t

/-- Python truthiness of an optional string (`None` and `''` are falsy). -/
def pyTruthyStr : Option (List Char) → Bool
  | none => false
  | some s => !s.isEmpty

/-- Modelled from the spec: the constant `TOPIC_SEP` of
`django_mqtt/protocol.py` (not under `src/`); the spec fixes the segment
separator to `/`. -/
def TOPIC_SEP : Char := '/'

/-- Modelled from the spec: the constant `WILDCARD_MULTI_LEVEL` (`#`) of
`django_mqtt/protocol.py`. -/
def WILDCARD_MULTI_LEVEL : List Char := ['#']

/-- Modelled from the spec: the constant `WILDCARD_SINGLE_LEVEL` (`+`) of
`django_mqtt/protocol.py`. -/
def WILDCARD_SINGLE_LEVEL : List Char := ['+']

/-- Modelled from the spec: the constant `TOPIC_BEGINNING_DOLLAR` (`$`) of
`django_mqtt/protocol.py`. -/
def TOPIC_BEGINNING_DOLLAR : List Char := ['$']

/-- The `Topic` model row: the topic string plus the two stored derived
flag columns (`models.BooleanField(default=False)` each). -/
structure Topic where
  name : List Char
  wildcard : Bool := false
  dollar : Bool := false
deriving DecidableEq, Repr

/-- Build a `Topic` from a string literal with the field defaults, as
`Topic(name=...)` does in Python. -/
def Topic.mkT (s : String) : Topic := { name := s.toList }

/-- `Topic.is_wildcard`: the name contains `#` or `+` (substring test). -/
def Topic.is_wildcard (t : Topic) : Bool :=
  strIn WILDCARD_MULTI_LEVEL t.name || strIn WILDCARD_SINGLE_LEVEL t.name

/-- `Topic.is_dollar`: the name starts with `$`. -/
def Topic.is_dollar (t : Topic) : Bool :=
  TOPIC_BEGINNING_DOLLAR.isPrefixOf t.name

/-- The pairwise segment walk at the end of `Topic.__contains__`
(lines 148-158 of `models.py`): `+` matches any single segment unless the
other topic is a wildcard and the paired segment is literally `#`; `#`
matches the remainder immediately; literals must match exactly. -/
def coversWalk (compWild : Bool) : List (List Char) → List (List Char) → Bool
  | [], _ => true
  | _ :: _, [] => false
  | part :: rest, cmp :: crest =>
    if part = WILDCARD_SINGLE_LEVEL then
      if compWild && cmp = WILDCARD_MULTI_LEVEL then false
      else coversWalk compWild rest crest
    else if part = WILDCARD_MULTI_LEVEL then true
    else if part ≠ cmp then false
    else coversWalk compWild rest crest

/-- `Topic.__contains__` (`comp in self`), the covering predicate.  The
first test models Python's `if not comp: return False`: a `Topic` defines
`__len__`, so a topic with an empty name is falsy and is never covered. -/
def Topic.covers (self comp : Topic) : Bool :=
  if comp.name.isEmpty then false
  else if self.name = comp.name then true
  else if !self.is_wildcard then false
  else if (self.is_dollar && !comp.is_dollar) || (comp.is_dollar && !self.is_dollar) then false
  else
    let my_parts := pySplit TOPIC_SEP self.name
    let comp_parts := pySplit TOPIC_SEP comp.name
    if self.is_dollar && (my_parts.headD [] != comp_parts.headD []) then false
    else
      let comp_size := comp_parts.length
      if comp_size < my_parts.length then false
      else if !(WILDCARD_MULTI_LEVEL.isSuffixOf self.name) && comp_size > my_parts.length then false
      else coversWalk comp.is_wildcard my_parts comp_parts

/-- `Topic.__lt__`: `self < other` holds when `other` is truthy (non-empty
name), is a wildcard, and covers `self`.  Used by `min()` during ACL
resolution. -/
def Topic.lt (self other : Topic) : Bool :=
  if other.name.isEmpty || !other.is_wildcard then false
  else other.covers self

/-- `Topic.save`: recomputes the stored `wildcard`/`dollar` flag columns
from the name whenever `update_fields` is falsy (absent or empty) or names
the respective column, then writes the row. -/
def Topic.save (t : Topic) (update_fields : Option (List String)) : Topic :=
  let falsy : Bool := match update_fields with
    | none => true
    | some l => l.isEmpty
  let w := if falsy || (update_fields.getD []).contains "wildcard" then t.is_wildcard else t.wildcard
  let d := if falsy || (update_fields.getD []).contains "dollar" then t.is_dollar else t.dollar
  { t with wildcard := w, dollar := d }

/-- A topic as it sits in the store after `Topic.save` ran on a fresh row
(creation always goes through `save`, which derives the flags). -/
def Topic.mkSaved (s : String) : Topic := (Topic.mkT s).save none

/-- `Topic.get_candidates` (lines 160-186): the persistence-backed
prefilter.  The Django query set `Topic.objects` is modelled as the list
`store` of rows; each `.filter(...)` is a `List.filter` preserving store
order, and `set(parts[1:-1])` is modelled by `List.dedup`. -/
def Topic.get_candidates (self : Topic) (store : List Topic) : List Topic :=
  let candidates := store.filter (fun t => t.dollar == self.is_dollar && t.wildcard == false)
  let multi := WILDCARD_MULTI_LEVEL.isSuffixOf self.name
  let topic := if multi then self.name.dropLast else self.name
  let parts := pySplit '+' topic
  if parts.length = 1 then
    if topic.length ≠ 0 then candidates.filter (fun t => topic.isPrefixOf t.name)
    else candidates
  else if topic = WILDCARD_SINGLE_LEVEL then
    candidates.filter (fun t => !strIn [TOPIC_SEP] t.name)
  else
    let candidates :=
      if multi then
        candidates.filter (fun t =>
          (parts.headD []).isPrefixOf t.name && strIn (parts.getLastD []) t.name)
      else
        candidates.filter (fun t =>
          (parts.headD []).isPrefixOf t.name && (parts.getLastD []).isSuffixOf t.name)
    ((parts.drop 1).dropLast).dedup.foldl
      (fun cs part => cs.filter (fun t => strIn part t.name)) candidates

/-- `Topic.__iter__` (lines 188-194): a non-wildcard topic yields itself;
a wildcard topic yields every candidate from the prefilter that it
actually covers. -/
def Topic.iterT (self : Topic) (store : List Topic) : List Topic :=
  if !self.is_wildcard then [self]
  else (self.get_candidates store).filter (fun c => self.covers c)

/-- The access-kind constant `PROTO_MQTT_ACC_SUS` (subscribe). -/
def PROTO_MQTT_ACC_SUS : Nat := 1

/-- The access-kind constant `PROTO_MQTT_ACC_PUB` (publish). -/
def PROTO_MQTT_ACC_PUB : Nat := 2

/-- A Django auth user as the ACL code sees it: primary key, primary keys
of the groups it belongs to, and the `is_anonymous` flag. -/
structure MqttUser where
  pk : Nat
  group_pks : List Nat
  is_anonymous : Bool
deriving DecidableEq, Repr

/-- The `ACL` model row.  `users`/`groups` are the primary-key sets of the
two many-to-many relations; `password` is the optional stored hash. -/
structure ACL where
  allow : Bool
  topic : Topic
  acc : Nat
  users : List Nat := []
  groups : List Nat := []
  password : Option (List Char) := none
deriving DecidableEq, Repr

/-- The settings the ACL code reads (`hasattr` is modelled by `Option`). -/
structure MqttSettings where
  MQTT_ACL_ALLOW : Option Bool := none
  MQTT_ACL_ALLOW_ANONIMOUS : Option Bool := none
deriving Repr

/-- `ACL.is_public`: no users, no groups and a falsy password. -/
def ACL.is_public (a : ACL) : Bool :=
  a.users.isEmpty && a.groups.isEmpty && !pyTruthyStr a.password

/-- `ACL.has_permission` (lines 303-317).  `verify hash raw` stands for
Django's `check_password` (constant-time hash verification), injected as
an abstract collaborator; it is only consulted when both the stored
password and the supplied password are truthy. -/
def ACL.has_permission (a : ACL) (verify : List Char → List Char → Bool)
    (user : Option MqttUser) (password : Option (List Char)) : Bool :=
  if a.is_public then a.allow
  else
    let allow :=
      match user with
      | none => false
      | some u =>
        if a.users.any (fun pk => pk == u.pk) then a.allow
        else if a.groups.any (fun g => u.group_pks.any (fun g' => g' == g)) then a.allow
        else !a.allow
    if pyTruthyStr a.password && pyTruthyStr password then
      verify (a.password.getD []) (password.getD [])
    else allow

/-- `ACL.__lt__`: delegates to `Topic.__lt__` on the rule topics. -/
def ACL.lt (self other : ACL) : Bool := self.topic.lt other.topic

/-- Python's `min` over a non-empty list using `__lt__`: keep the first
element, replace it whenever a later element compares strictly below the
current one. -/
def pyMin : List ACL → Option ACL
  | [] => none
  | h :: t => some (t.foldl (fun best x => if ACL.lt x best then x else best) h)

/-- Django's `Topic.objects.get_or_create(name=...)`: return the stored
row with that (unique) name, or insert a fresh one — creation runs
`Topic.save`, which derives the flag columns. -/
def topicGetOrCreate (store : List Topic) (name : List Char) : Topic × List Topic :=
  match store.find? (fun t => t.name = name) with
  | some t => (t, store)
  | none =>
    let t := (Topic.mk name false false).save none
    (t, store ++ [t])

/-- The argument accepted by `ACL.get_acl`: a raw topic string or a
`Topic` instance.  (The `bytes` branch of the source assigns the whole
`get_or_create` tuple to `topic` and can never resolve a rule; it is not
modelled.) -/
inductive TopicArg where
  | str (s : List Char)
  | topicObj (t : Topic)
deriving DecidableEq, Repr

/-- `ACL.get_acl` (lines 281-298).  A string argument goes through
`get_or_create`, which may insert a new `Topic` row — the returned list is
the topic store after the call.  The exact `(topic, acc)` lookup is by the
unique key `(topic, acc)`; failing that, every stored rule whose topic has
the `wildcard` flag and the requested access kind is tested with `covers`,
and `min` picks the result. -/
def ACL.get_acl (topicStore : List Topic) (aclStore : List ACL)
    (arg : TopicArg) (acc : Nat) : Option ACL × List Topic :=
  let res :=
    match arg with
    | .str s => topicGetOrCreate topicStore s
    | .topicObj t => (t, topicStore)
  let topic := res.1
  let candidates :=
    match aclStore.find? (fun a => a.topic.name = topic.name && a.acc == acc) with
    | some a => [a]
    | none =>
      (aclStore.filter (fun a => a.topic.wildcard && a.acc == acc)).filter
        (fun a => a.topic.covers topic)
  (pyMin candidates, res.2)

/-- `ACL.get_default` (lines 247-271): the default/broadcast policy.
Settings absence is `none`; the early `return` inside the anonymous-user
block is modelled by the `earlyRet` flag. -/
def ACL.get_default (cfg : MqttSettings) (topicStore : List Topic) (aclStore : List ACL)
    (verify : List Char → List Char → Bool) (acc : Nat)
    (user : Option MqttUser) (password : Option (List Char)) : Bool :=
  let allow := cfg.MQTT_ACL_ALLOW.getD false
  let step : Bool × Bool :=
    match cfg.MQTT_ACL_ALLOW_ANONIMOUS with
    | none => (false, allow)
    | some anon =>
      if user.isNone || (user.map (·.is_anonymous)).getD false then
        let allow := anon && allow
        if !allow && !pyTruthyStr password then (true, allow) else (false, allow)
      else (false, allow)
  if step.1 then step.2
  else
    let allow := step.2
    match topicStore.find? (fun t => t.name = WILDCARD_MULTI_LEVEL) with
    | none => allow
    | some broadcast_topic =>
      let broadcast := aclStore.filter (fun a => a.topic.name = broadcast_topic.name)
      if acc = PROTO_MQTT_ACC_SUS ∨ acc = PROTO_MQTT_ACC_PUB then
        match broadcast.find? (fun a => a.acc == acc) with
        | none => allow
        | some broadcast_acl => broadcast_acl.has_permission verify user password
      else allow

/-- The candidate set built by the wildcard branch of `ACL.get_acl`:
stored rules with the `wildcard` topic flag and the requested access kind
whose topic covers the resolved topic, in store order. -/
def wildcardCandidates (aclStore : List ACL) (T : Topic) (A : Nat) : List ACL :=
  (aclStore.filter (fun a => a.topic.wildcard && a.acc == A)).filter
    (fun a => a.topic.covers T)

/-- The `min()` step function used by `pyMin`. -/
def minStep (best x : ACL) : ACL := if ACL.lt x best then x else best

/-- Well-formedness of the ACL store: the database constraint
`unique_together = ('topic', 'acc')` (with `Topic.name` itself unique)
means no two stored rules share a topic name and access kind. -/
def ACLStoreWF (l : List ACL) : Prop :=
  l.Pairwise (fun a b => a.topic.name ≠ b.topic.name ∨ a.acc ≠ b.acc)

/-- The pure prefilter condition applied by `Topic.get_candidates` on top
of the dollar-class/non-wildcard row filter, extracted as a predicate on
the candidate row (same branches, same derived prefix/suffix/contains
tests). -/
def prefCond (self t : Topic) : Bool :=
  let multi := WILDCARD_MULTI_LEVEL.isSuffixOf self.name
  let topic := if multi then self.name.dropLast else self.name
  let parts := pySplit '+' topic
  if parts.length = 1 then
    if topic.length ≠ 0 then topic.isPrefixOf t.name else true
  else if topic = WILDCARD_SINGLE_LEVEL then !strIn [TOPIC_SEP] t.name
  else
    ((parts.headD []).isPrefixOf t.name &&
      (if multi then strIn (parts.getLastD []) t.name
       else (parts.getLastD []).isSuffixOf t.name)) &&
    ((parts.drop 1).dropLast).dedup.all (fun p => strIn p t.name)

/-- A filter segment matches a topic segment when it is the single-level
wildcard or literally equal (the walk semantics for a non-wildcard
compared topic). -/
def segMatch (fseg tseg : List Char) : Prop :=
  fseg = WILDCARD_SINGLE_LEVEL ∨ fseg = tseg

/-- Modelled from the spec: per-segment grammar of `TopicValidator`
(`django_mqtt/validators.py`, not under `src/`) for a non-final segment:
no `#`, and `+` only as the whole segment. -/
def validSegNF (seg : List Char) : Bool :=
  !(decide ('#' ∈ seg)) && (!(decide ('+' ∈ seg)) || seg == WILDCARD_SINGLE_LEVEL)

/-- Modelled from the spec: segment-list grammar — `#` is only legal as
the whole last segment, `+` only as a whole segment. -/
def validSegsAux : List (List Char) → Bool
  | [] => true
  | [seg] => seg == WILDCARD_MULTI_LEVEL || validSegNF seg
  | seg :: rest => validSegNF seg && validSegsAux rest

/-- Modelled from the spec: `TopicValidator` — a topic name is non-empty
and its `/`-segments satisfy the wildcard grammar (the maximum-length
bound is irrelevant to matching and omitted). -/
def validTopicName (s : List Char) : Bool :=
  !s.isEmpty && validSegsAux (pySplit TOPIC_SEP s)

/-- String parts contributed by the second and later `+`-separated blocks
of a topic: each inner block is rendered with a leading separator (left
over from the removed `+`) and, when another block follows, a trailing
separator. -/
def padParts2 (sep : α) : List (List (List α)) → List (List α)
  | [] => []
  | [b] => [joinSep sep ([] :: b)]
  | b :: rest => joinSep sep ([] :: (b ++ [[]])) :: padParts2 sep rest

/-- How `pySplit` on the wildcard character decomposes a joined segment
list whose `+`-segments have been split off into `blocks`. -/
def padParts (sep : α) : List (List (List α)) → List (List α)
  | [] => []
  | [b] => [joinSep sep b]
  | b :: rest => joinSep sep (b ++ [[]]) :: padParts2 sep rest

/-! ### Basic lemmas about the string helpers -/

theorem pySplit_ne_nil [DecidableEq α] (sep : α) (l : List α) : pySplit sep l ≠ [] := by
  induction l with
  | nil => simp [pySplit]
  | cons c rest ih =>
    unfold pySplit
    by_cases hc : c = sep
    · simp [hc]
    · simp only [if_neg hc]
      cases h : pySplit sep rest <;> simp

theorem pySplit_not_mem [DecidableEq α] {sep : α} {l : List α} (h : sep ∉ l) :
    pySplit sep l = [l] := by
  induction l with
  | nil => rfl
  | cons c rest ih =>
    have hc : ¬ c = sep := fun e => h (by simp [e])
    have hr : sep ∉ rest := fun m => h (List.mem_cons_of_mem _ m)
    unfold pySplit
    simp [if_neg hc, ih hr]

theorem pySplit_cons_sep [DecidableEq α] {sep c : α} (rest : List α) (h : c = sep) :
    pySplit sep (c :: rest) = [] :: pySplit sep rest := by
  simp [pySplit, h]

theorem pySplit_cons_ne [DecidableEq α] {sep c : α} {rest : List α} (h : ¬ c = sep)
    {a : List α} {as : List (List α)} (hr : pySplit sep rest = a :: as) :
    pySplit sep (c :: rest) = (c :: a) :: as := by
  simp [pySplit, h, hr]

theorem pySplit_length_cons [DecidableEq α] (sep c : α) (rest : List α) :
    (pySplit sep (c :: rest)).length =
      if c = sep then (pySplit sep rest).length + 1 else (pySplit sep rest).length := by
  by_cases hc : c = sep
  · rw [pySplit_cons_sep rest hc, if_pos hc]
    simp
  · cases h : pySplit sep rest with
    | nil => exact absurd h (pySplit_ne_nil _ _)
    | cons a as =>
      rw [pySplit_cons_ne hc h, if_neg hc]
      simp [h]

theorem pySplit_length_pos [DecidableEq α] (sep : α) (l : List α) :
    0 < (pySplit sep l).length :=
  List.length_pos.mpr (pySplit_ne_nil sep l)

theorem pySplit_length_eq_one [DecidableEq α] {sep : α} {l : List α} :
    (pySplit sep l).length = 1 ↔ sep ∉ l := by
  induction l with
  | nil => simp [pySplit]
  | cons c rest ih =>
    rw [pySplit_length_cons]
    by_cases hc : c = sep
    · simp only [if_pos hc]
      constructor
      · intro h
        have := pySplit_length_pos sep rest
        omega
      · intro h
        exact absurd (hc ▸ List.mem_cons_self c rest) h
    · simp only [if_neg hc, ih, List.mem_cons]
      constructor
      · intro h
        rintro (h1 | h2)
        · exact hc h1.symm
        · exact h h2
      · intro h hm
        exact h (Or.inr hm)

theorem strIn_singleton (c : Char) (s : List Char) : strIn [c] s = true ↔ c ∈ s := by
  induction s with
  | nil => simp [strIn, List.isEmpty]
  | cons d t ih =>
    simp [strIn, List.isPrefixOf, Bool.or_eq_true, ih, List.mem_cons, beq_iff_eq]

theorem is_wildcard_iff (t : Topic) :
    t.is_wildcard = true ↔ '#' ∈ t.name ∨ '+' ∈ t.name := by
  simp [Topic.is_wildcard, WILDCARD_MULTI_LEVEL, WILDCARD_SINGLE_LEVEL,
        strIn_singleton, Bool.or_eq_true]

theorem is_wildcard_eq_false_iff (t : Topic) :
    t.is_wildcard = false ↔ '#' ∉ t.name ∧ '+' ∉ t.name := by
  rw [← Bool.not_eq_true, is_wildcard_iff]
  tauto

theorem joinSep_cons (sep : α) (p : List α) {ps : List (List α)} (h : ps ≠ []) :
    joinSep sep (p :: ps) = p ++ sep :: joinSep sep ps := by
  cases ps with
  | nil => exact absurd rfl h
  | cons q qs => rfl

theorem joinSep_cons_cons (sep c : α) (h : List α) (t : List (List α)) :
    joinSep sep ((c :: h) :: t) = c :: joinSep sep (h :: t) := by
  cases t <;> rfl

theorem joinSep_pySplit [DecidableEq α] (sep : α) (l : List α) :
    joinSep sep (pySplit sep l) = l := by
  induction l with
  | nil => rfl
  | cons c rest ih =>
    by_cases hc : c = sep
    · rw [pySplit_cons_sep rest hc, joinSep_cons sep [] (pySplit_ne_nil sep rest)]
      simp [hc, ih]
    · cases h : pySplit sep rest with
      | nil => exact absurd h (pySplit_ne_nil _ _)
      | cons a as =>
        rw [pySplit_cons_ne hc h, joinSep_cons_cons, ← h, ih]

theorem pySplit_append_sep [DecidableEq α] {sep : α} {x : List α} (y : List α)
    (hx : sep ∉ x) : pySplit sep (x ++ sep :: y) = x :: pySplit sep y := by
  induction x with
  | nil => exact pySplit_cons_sep y rfl
  | cons c x' ih =>
    have hc : ¬ c = sep := fun e => hx (by simp [e])
    have hx' : sep ∉ x' := fun m => hx (List.mem_cons_of_mem _ m)
    rw [List.cons_append]
    exact pySplit_cons_ne hc (ih hx')

theorem joinSep_append (sep : α) {as bs : List (List α)} (ha : as ≠ []) (hb : bs ≠ []) :
    joinSep sep (as ++ bs) = joinSep sep as ++ sep :: joinSep sep bs := by
  induction as with
  | nil => exact absurd rfl ha
  | cons a as' ih =>
    cases as' with
    | nil =>
      show joinSep sep (a :: bs) = joinSep sep [a] ++ sep :: joinSep sep bs
      rw [joinSep_cons sep a hb]
      rfl
    | cons a2 as2 =>
      rw [List.cons_append, joinSep_cons sep a (by simp),
        joinSep_cons sep a (by simp : (a2 :: as2) ≠ []), ih (by simp)]
      simp

theorem pySplit_mem_not_sep [DecidableEq α] {sep : α} {l : List α} {p : List α}
    (hp : p ∈ pySplit sep l) : sep ∉ p := by
  induction l generalizing p with
  | nil =>
    simp [pySplit] at hp
    simp [hp]
  | cons c rest ih =>
    by_cases hc : c = sep
    · rw [pySplit_cons_sep rest hc] at hp
      rcases List.mem_cons.mp hp with rfl | h
      · simp
      · exact ih h
    · cases h : pySplit sep rest with
      | nil => exact absurd h (pySplit_ne_nil _ _)
      | cons a as =>
        rw [pySplit_cons_ne hc h] at hp
        rcases List.mem_cons.mp hp with rfl | hmem
        · intro hm
          rcases List.mem_cons.mp hm with rfl | hm2
          · exact hc rfl
          · exact ih (h ▸ List.mem_cons_self a as) hm2
        · exact ih (h ▸ List.mem_cons_of_mem a hmem)

theorem pySplit_mem_subset [DecidableEq α] {sep : α} {l p : List α}
    (hp : p ∈ pySplit sep l) : ∀ x ∈ p, x ∈ l := by
  induction l generalizing p with
  | nil =>
    simp [pySplit] at hp
    simp [hp]
  | cons c rest ih =>
    by_cases hc : c = sep
    · rw [pySplit_cons_sep rest hc] at hp
      rcases List.mem_cons.mp hp with rfl | h
      · simp
      · exact fun x hx => List.mem_cons_of_mem c (ih h x hx)
    · cases h : pySplit sep rest with
      | nil => exact absurd h (pySplit_ne_nil _ _)
      | cons a as =>
        rw [pySplit_cons_ne hc h] at hp
        rcases List.mem_cons.mp hp with rfl | hmem
        · intro x hx
          rcases List.mem_cons.mp hx with rfl | hx2
          · exact List.mem_cons_self x rest
          · exact List.mem_cons_of_mem c
              (ih (h ▸ List.mem_cons_self a as) x hx2)
        · exact fun x hx => List.mem_cons_of_mem c
            (ih (h ▸ List.mem_cons_of_mem a hmem) x hx)

theorem pySplit_joinSep [DecidableEq α] {sep : α} {l : List (List α)} (hl : l ≠ [])
    (hfree : ∀ p ∈ l, sep ∉ p) : pySplit sep (joinSep sep l) = l := by
  induction l with
  | nil => exact absurd rfl hl
  | cons p ps ih =>
    cases ps with
    | nil =>
      show pySplit sep (joinSep sep [p]) = [p]
      exact pySplit_not_mem (hfree p (by simp))
    | cons q qs =>
      rw [joinSep_cons sep p (by simp), pySplit_append_sep _ (hfree p (by simp)),
        ih (by simp) (fun r hr => hfree r (List.mem_cons_of_mem p hr))]

theorem mem_joinSep {sep : α} {l : List (List α)} {c : α}
    (hc : c ∈ joinSep sep l) : c = sep ∨ ∃ p ∈ l, c ∈ p := by
  induction l with
  | nil => cases hc
  | cons p ps ih =>
    cases ps with
    | nil => exact Or.inr ⟨p, by simp, hc⟩
    | cons q qs =>
      rw [joinSep_cons sep p (by simp)] at hc
      rcases List.mem_append.mp hc with h | h
      · exact Or.inr ⟨p, by simp, h⟩
      · rcases List.mem_cons.mp h with rfl | h2
        · exact Or.inl rfl
        · rcases ih h2 with h3 | ⟨r, hr, hcr⟩
          · exact Or.inl h3
          · exact Or.inr ⟨r, List.mem_cons_of_mem p hr, hcr⟩

theorem not_mem_joinSep {sep s : α} {l : List (List α)} (hss : s ≠ sep)
    (h : ∀ p ∈ l, s ∉ p) : s ∉ joinSep sep l := by
  intro hmem
  rcases mem_joinSep hmem with h1 | ⟨p, hp, hsp⟩
  · exact hss h1
  · exact h p hp hsp

theorem getLastD_ne_nil {l : List α} (h : l ≠ []) (d e : α) :
    l.getLastD d = l.getLastD e := by
  cases l with
  | nil => exact absurd rfl h
  | cons a t => rw [List.getLastD_cons, List.getLastD_cons]

/-! ### How splitting on the wildcard decomposes a joined segment list -/

theorem padParts2_ne_nil (sep : α) {rest : List (List (List α))} (h : rest ≠ []) :
    padParts2 sep rest ≠ [] := by
  cases rest with
  | nil => exact absurd rfl h
  | cons b r => cases r <;> simp [padParts2]

theorem padParts2_length (sep : α) (rest : List (List (List α))) :
    (padParts2 sep rest).length = rest.length := by
  induction rest with
  | nil => rfl
  | cons b r ih =>
    cases r with
    | nil => rfl
    | cons b2 r2 =>
      show (joinSep sep ([] :: (b ++ [[]])) :: padParts2 sep (b2 :: r2)).length =
        (b :: b2 :: r2).length
      simp only [List.length_cons, ih]

theorem padParts_length (sep : α) (blocks : List (List (List α))) :
    (padParts sep blocks).length = blocks.length := by
  cases blocks with
  | nil => rfl
  | cons b r =>
    cases r with
    | nil => rfl
    | cons b2 r2 =>
      show (joinSep sep (b ++ [[]]) :: padParts2 sep (b2 :: r2)).length =
        (b :: b2 :: r2).length
      simp only [List.length_cons, padParts2_length]

theorem padParts_headD (sep : α) (b : List (List α)) {rest : List (List (List α))}
    (h : rest ≠ []) :
    (padParts sep (b :: rest)).headD [] = joinSep sep (b ++ [[]]) := by
  cases rest with
  | nil => exact absurd rfl h
  | cons x xs => rfl

theorem padParts2_getLastD (sep : α) {rest : List (List (List α))} (h : rest ≠ []) :
    (padParts2 sep rest).getLastD [] = joinSep sep ([] :: rest.getLastD []) := by
  induction rest with
  | nil => exact absurd rfl h
  | cons b r ih =>
    cases r with
    | nil => rfl
    | cons b2 r2 =>
      show (joinSep sep ([] :: (b ++ [[]])) :: padParts2 sep (b2 :: r2)).getLastD [] = _
      rw [List.getLastD_cons,
        getLastD_ne_nil (padParts2_ne_nil sep (by simp)) _ [], ih (by simp)]
      have hr : (b :: b2 :: r2).getLastD ([] : List (List α)) =
          (b2 :: r2).getLastD [] := by
        rw [List.getLastD_cons]
        exact getLastD_ne_nil (by simp) b []
      rw [hr]

theorem padParts_getLastD (sep : α) (b : List (List α)) {rest : List (List (List α))}
    (h : rest ≠ []) :
    (padParts sep (b :: rest)).getLastD [] =
      joinSep sep ([] :: rest.getLastD []) := by
  cases rest with
  | nil => exact absurd rfl h
  | cons b2 r2 =>
    show (joinSep sep (b ++ [[]]) :: padParts2 sep (b2 :: r2)).getLastD [] = _
    rw [List.getLastD_cons,
      getLastD_ne_nil (padParts2_ne_nil sep (by simp)) _ []]
    exact padParts2_getLastD sep (by simp)

theorem padParts2_interior (sep : α) {rest : List (List (List α))} {p : List α}
    (hp : p ∈ (padParts2 sep rest).dropLast) :
    ∃ bs₁ b bs₂, rest = bs₁ ++ b :: bs₂ ∧ bs₂ ≠ [] ∧
      p = joinSep sep ([] :: (b ++ [[]])) := by
  induction rest with
  | nil => cases hp
  | cons b r ih =>
    cases r with
    | nil => cases hp
    | cons b2 r2 =>
      have hne := padParts2_ne_nil sep (by simp : (b2 :: r2 : List (List (List α))) ≠ [])
      rw [show padParts2 sep (b :: b2 :: r2) =
            joinSep sep ([] :: (b ++ [[]])) :: padParts2 sep (b2 :: r2) from rfl,
        List.dropLast_cons_of_ne_nil hne] at hp
      rcases List.mem_cons.mp hp with rfl | hmem
      · exact ⟨[], b, b2 :: r2, rfl, by simp, rfl⟩
      · obtain ⟨bs₁, bb, bs₂, he, hne2, hpe⟩ := ih hmem
        exact ⟨b :: bs₁, bb, bs₂, by rw [he]; rfl, hne2, hpe⟩

theorem padParts_interior (sep : α) {blocks : List (List (List α))} {p : List α}
    (hp : p ∈ ((padParts sep blocks).drop 1).dropLast) :
    ∃ bs₁ b bs₂, blocks = bs₁ ++ b :: bs₂ ∧ bs₁ ≠ [] ∧ bs₂ ≠ [] ∧
      p = joinSep sep ([] :: (b ++ [[]])) := by
  cases blocks with
  | nil => cases hp
  | cons b r =>
    cases r with
    | nil => cases hp
    | cons b2 r2 =>
      have hp' : p ∈ (padParts2 sep (b2 :: r2)).dropLast := hp
      obtain ⟨bs₁, bb, bs₂, he, hne2, hpe⟩ := padParts2_interior sep hp'
      exact ⟨b :: bs₁, bb, bs₂, by rw [he]; rfl, by simp, hne2, hpe⟩

theorem pySplit_tail_blocks [DecidableEq α] {sep s : α} (hss : s ≠ sep)
    {rest : List (List (List α))} (hrest : rest ≠ [])
    (hclean : ∀ b ∈ rest, ∀ seg ∈ b, s ∉ seg) :
    pySplit s (if joinSep [s] rest = [] then []
               else sep :: joinSep sep (joinSep [s] rest)) = padParts2 sep rest := by
  induction rest with
  | nil => exact absurd rfl hrest
  | cons b r ih =>
    cases r with
    | nil =>
      show pySplit s (if (b : List (List α)) = [] then []
        else sep :: joinSep sep b) = [joinSep sep ([] :: b)]
      by_cases hb : b = []
      · subst hb
        simp [pySplit, joinSep]
      · rw [if_neg hb]
        have hfree : s ∉ sep :: joinSep sep b := by
          intro hm
          rcases List.mem_cons.mp hm with h1 | h2
          · exact hss h1
          · exact not_mem_joinSep hss (hclean b (by simp)) h2
        rw [pySplit_not_mem hfree, joinSep_cons sep [] hb]
        rfl
    | cons b2 r2 =>
      have hcleanT : ∀ x ∈ b2 :: r2, ∀ seg ∈ x, s ∉ seg :=
        fun x hx => hclean x (List.mem_cons_of_mem b hx)
      have hJ : joinSep [s] (b :: b2 :: r2) = b ++ [s] :: joinSep [s] (b2 :: r2) :=
        joinSep_cons [s] b (by simp)
      have hpad : padParts2 sep (b :: b2 :: r2) =
          joinSep sep ([] :: (b ++ [[]])) :: padParts2 sep (b2 :: r2) := rfl
      have hIH := ih (by simp) hcleanT
      have hne : b ++ [s] :: joinSep [s] (b2 :: r2) ≠ [] := by simp
      rw [hJ, if_neg hne, hpad]
      by_cases hb : b = []
      · subst hb
        simp only [List.nil_append]
        by_cases hR : joinSep [s] (b2 :: r2) = []
        · rw [hR] at hIH ⊢
          have : joinSep sep [[s]] = [s] := rfl
          rw [show ([s] :: ([] : List (List α))) = [[s]] from rfl, this]
          have hx : (sep :: [s] : List α) = [sep] ++ s :: [] := rfl
          rw [hx, pySplit_append_sep [] (by
            intro hm
            rcases List.mem_cons.mp hm with h1 | h2
            · exact hss h1
            · cases h2)]
          rw [if_pos rfl] at hIH
          rw [hIH]
          rfl
        · rw [joinSep_cons sep [s] hR]
          have hx : (sep :: ([s] ++ sep :: joinSep sep (joinSep [s] (b2 :: r2))) : List α) =
              [sep] ++ s :: (sep :: joinSep sep (joinSep [s] (b2 :: r2))) := rfl
          rw [hx, pySplit_append_sep _ (by
            intro hm
            rcases List.mem_cons.mp hm with h1 | h2
            · exact hss h1
            · cases h2)]
          rw [if_neg hR] at hIH
          rw [hIH]
          rfl
      · rw [joinSep_append sep hb (by simp)]
        by_cases hR : joinSep [s] (b2 :: r2) = []
        · rw [hR] at hIH ⊢
          have h1 : joinSep sep ([s] :: ([] : List (List α))) = [s] := rfl
          rw [h1]
          have hx : (sep :: (joinSep sep b ++ sep :: [s]) : List α) =
              (sep :: joinSep sep b ++ [sep]) ++ s :: [] := by simp
          rw [hx, pySplit_append_sep [] (by
            intro hm
            rcases List.mem_cons.mp hm with h1 | h2
            · exact hss h1
            · rcases List.mem_append.mp h2 with h3 | h4
              · exact not_mem_joinSep hss (hclean b (by simp)) h3
              · rcases List.mem_cons.mp h4 with h5 | h6
                · exact hss h5
                · cases h6)]
          rw [if_pos rfl] at hIH
          rw [hIH]
          have hy : joinSep sep ([] :: (b ++ [[]])) = sep :: joinSep sep b ++ [sep] := by
            rw [joinSep_cons sep [] (by simp), joinSep_append sep hb (by simp)]
            rfl
          rw [hy]
        · rw [joinSep_cons sep [s] hR]
          have hx : (sep :: (joinSep sep b ++ sep ::
              ([s] ++ sep :: joinSep sep (joinSep [s] (b2 :: r2)))) : List α) =
              (sep :: joinSep sep b ++ [sep]) ++
                s :: (sep :: joinSep sep (joinSep [s] (b2 :: r2))) := by simp
          rw [hx, pySplit_append_sep _ (by
            intro hm
            rcases List.mem_cons.mp hm with h1 | h2
            · exact hss h1
            · rcases List.mem_append.mp h2 with h3 | h4
              · exact not_mem_joinSep hss (hclean b (by simp)) h3
              · rcases List.mem_cons.mp h4 with h5 | h6
                · exact hss h5
                · cases h6)]
          rw [if_neg hR] at hIH
          rw [hIH]
          have hy : joinSep sep ([] :: (b ++ [[]])) = sep :: joinSep sep b ++ [sep] := by
            rw [joinSep_cons sep [] (by simp), joinSep_append sep hb (by simp)]
            rfl
          rw [hy]

theorem pySplit_joinSep_blocks [DecidableEq α] {sep s : α} (hss : s ≠ sep)
    {blocks : List (List (List α))} (hblocks : blocks ≠ [])
    (hclean : ∀ b ∈ blocks, ∀ seg ∈ b, s ∉ seg) :
    pySplit s (joinSep sep (joinSep [s] blocks)) = padParts sep blocks := by
  cases blocks with
  | nil => exact absurd rfl hblocks
  | cons b r =>
    cases r with
    | nil =>
      show pySplit s (joinSep sep b) = [joinSep sep b]
      exact pySplit_not_mem (not_mem_joinSep hss (hclean b (by simp)))
    | cons b2 r2 =>
      have hcleanT : ∀ x ∈ b2 :: r2, ∀ seg ∈ x, s ∉ seg :=
        fun x hx => hclean x (List.mem_cons_of_mem b hx)
      have hJ : joinSep [s] (b :: b2 :: r2) = b ++ [s] :: joinSep [s] (b2 :: r2) :=
        joinSep_cons [s] b (by simp)
      have hIH := pySplit_tail_blocks hss (by simp : (b2 :: r2 : List (List (List α))) ≠ []) hcleanT
      have hpad : padParts sep (b :: b2 :: r2) =
          joinSep sep (b ++ [[]]) :: padParts2 sep (b2 :: r2) := rfl
      rw [hJ, hpad]
      by_cases hb : b = []
      · subst hb
        simp only [List.nil_append]
        by_cases hR : joinSep [s] (b2 :: r2) = []
        · rw [hR] at hIH ⊢
          have h1 : joinSep sep ([s] :: ([] : List (List α))) = [s] := rfl
          rw [h1]
          have hx : ([s] : List α) = [] ++ s :: [] := rfl
          rw [hx, pySplit_append_sep [] (by simp)]
          rw [if_pos rfl] at hIH
          rw [hIH]
          rfl
        · rw [joinSep_cons sep [s] hR]
          have hx : (([s] ++ sep :: joinSep sep (joinSep [s] (b2 :: r2))) : List α) =
              [] ++ s :: (sep :: joinSep sep (joinSep [s] (b2 :: r2))) := rfl
          rw [hx, pySplit_append_sep _ (by simp)]
          rw [if_neg hR] at hIH
          rw [hIH]
          rfl
      · rw [joinSep_append sep hb (by simp)]
        by_cases hR : joinSep [s] (b2 :: r2) = []
        · rw [hR] at hIH ⊢
          have h1 : joinSep sep ([s] :: ([] : List (List α))) = [s] := rfl
          rw [h1]
          have hx : ((joinSep sep b ++ sep :: [s]) : List α) =
              (joinSep sep b ++ [sep]) ++ s :: [] := by simp
          rw [hx, pySplit_append_sep [] (by
            intro hm
            rcases List.mem_append.mp hm with h3 | h4
            · exact not_mem_joinSep hss (hclean b (by simp)) h3
            · rcases List.mem_cons.mp h4 with h5 | h6
              · exact hss h5
              · cases h6)]
          rw [if_pos rfl] at hIH
          rw [hIH]
          have hy : joinSep sep (b ++ [[]]) = joinSep sep b ++ [sep] := by
            rw [joinSep_append sep hb (by simp)]
            rfl
          rw [hy]
        · rw [joinSep_cons sep [s] hR]
          have hx : ((joinSep sep b ++ sep ::
              ([s] ++ sep :: joinSep sep (joinSep [s] (b2 :: r2)))) : List α) =
              (joinSep sep b ++ [sep]) ++
                s :: (sep :: joinSep sep (joinSep [s] (b2 :: r2))) := by simp
          rw [hx, pySplit_append_sep _ (by
            intro hm
            rcases List.mem_append.mp hm with h3 | h4
            · exact not_mem_joinSep hss (hclean b (by simp)) h3
            · rcases List.mem_cons.mp h4 with h5 | h6
              · exact hss h5
              · cases h6)]
          rw [if_neg hR] at hIH
          rw [hIH]
          have hy : joinSep sep (b ++ [[]]) = joinSep sep b ++ [sep] := by
            rw [joinSep_append sep hb (by simp)]
            rfl
          rw [hy]

/-! ### Substrings, prefixes and suffixes of joined segment lists -/

theorem strIn_infix_iff (needle hay : List Char) :
    strIn needle hay = true ↔ needle <:+: hay := by
  induction hay with
  | nil =>
    simp [strIn, List.isEmpty_iff, List.infix_nil]
  | cons c t ih =>
    simp only [strIn, Bool.or_eq_true, List.isPrefixOf_iff_prefix, ih]
    exact (List.infix_cons_iff).symm

theorem joinSep_pref (sep : α) {as rest : List (List α)} (hrest : rest ≠ []) :
    joinSep sep (as ++ [[]]) <+: joinSep sep (as ++ rest) := by
  by_cases ha : as = []
  · subst ha
    show joinSep sep [[]] <+: joinSep sep rest
    exact List.nil_prefix
  · rw [joinSep_append sep ha (by simp), joinSep_append sep ha hrest]
    exact ⟨joinSep sep rest, by simp [joinSep]⟩

theorem joinSep_suff (sep : α) {t₁ bs : List (List α)} (ht : t₁ ≠ []) (hb : bs ≠ []) :
    (sep :: joinSep sep bs) <:+ joinSep sep (t₁ ++ bs) := by
  rw [joinSep_append sep ht hb]
  exact ⟨joinSep sep t₁, rfl⟩

theorem joinSep_infix_pattern (sep : α) {t₁ b t₃ : List (List α)}
    (h₁ : t₁ ≠ []) (h₃ : t₃ ≠ []) :
    joinSep sep ([] :: (b ++ [[]])) <:+: joinSep sep (t₁ ++ b ++ t₃) := by
  by_cases hb : b = []
  · subst hb
    have hpat : joinSep sep ([] :: (([] : List (List α)) ++ [[]])) = [sep] := rfl
    rw [hpat]
    have hmid : t₁ ++ ([] : List (List α)) ++ t₃ = t₁ ++ t₃ := by simp
    rw [hmid, joinSep_append sep h₁ h₃]
    exact ⟨joinSep sep t₁, joinSep sep t₃, by simp⟩
  · have hpat : joinSep sep ([] :: (b ++ [[]])) = sep :: joinSep sep b ++ [sep] := by
      rw [joinSep_cons sep [] (by simp), joinSep_append sep hb (by simp)]
      rfl
    rw [hpat, List.append_assoc,
      joinSep_append sep h₁ (by simp [hb]), joinSep_append sep hb h₃]
    exact ⟨joinSep sep t₁, joinSep sep t₃, by simp⟩

/-! ### The spec-modelled topic grammar and its consequences -/

theorem validSegNF_elim {seg : List Char} (h : validSegNF seg = true) :
    '#' ∉ seg ∧ ('+' ∈ seg → seg = WILDCARD_SINGLE_LEVEL) := by
  unfold validSegNF at h
  simp only [Bool.and_eq_true, Bool.or_eq_true, Bool.not_eq_true',
    decide_eq_false_iff_not, beq_iff_eq] at h
  refine ⟨h.1, fun hm => ?_⟩
  rcases h.2 with h2 | h2
  · exact absurd hm h2
  · exact h2

theorem validSegsAux_elim {l : List (List Char)} (h : validSegsAux l = true)
    (hne : l ≠ []) :
    ∃ gs last, l = gs ++ [last] ∧
      (∀ seg ∈ gs, '#' ∉ seg ∧ ('+' ∈ seg → seg = WILDCARD_SINGLE_LEVEL)) ∧
      (last = WILDCARD_MULTI_LEVEL ∨
        ('#' ∉ last ∧ ('+' ∈ last → last = WILDCARD_SINGLE_LEVEL))) := by
  induction l with
  | nil => exact absurd rfl hne
  | cons seg rest ih =>
    cases rest with
    | nil =>
      refine ⟨[], seg, rfl, by simp, ?_⟩
      have h' : (seg == WILDCARD_MULTI_LEVEL || validSegNF seg) = true := h
      simp only [Bool.or_eq_true, beq_iff_eq] at h'
      rcases h' with h1 | h1
      · exact Or.inl h1
      · exact Or.inr (validSegNF_elim h1)
    | cons seg2 rest2 =>
      have h' : (validSegNF seg && validSegsAux (seg2 :: rest2)) = true := h
      simp only [Bool.and_eq_true] at h'
      obtain ⟨gs, last, he, hgs, hlast⟩ := ih h'.2 (by simp)
      refine ⟨seg :: gs, last, by rw [he]; rfl, ?_, hlast⟩
      intro x hx
      rcases List.mem_cons.mp hx with rfl | hx2
      · exact validSegNF_elim h'.1
      · exact hgs x hx2

/-! ### The segment walk for a non-wildcard compared topic -/

theorem coversWalk_no_hash {gs ts : List (List Char)}
    (hgs : ∀ seg ∈ gs, seg ≠ WILDCARD_MULTI_LEVEL)
    (h : coversWalk false gs ts = true) :
    gs.length ≤ ts.length ∧ List.Forall₂ segMatch gs (ts.take gs.length) := by
  induction gs generalizing ts with
  | nil => simp
  | cons g gr ih =>
    cases ts with
    | nil => simp [coversWalk] at h
    | cons c cr =>
      simp only [coversWalk] at h
      by_cases hplus : g = WILDCARD_SINGLE_LEVEL
      · rw [if_pos hplus] at h
        simp only [Bool.false_and, Bool.false_eq_true, if_false] at h
        obtain ⟨hlen, hF⟩ := ih (fun s hs => hgs s (List.mem_cons_of_mem g hs)) h
        refine ⟨by simpa using Nat.succ_le_succ hlen, ?_⟩
        simp only [List.length_cons, List.take_succ_cons]
        exact List.Forall₂.cons (Or.inl hplus) hF
      · rw [if_neg hplus] at h
        by_cases hhash : g = WILDCARD_MULTI_LEVEL
        · exact absurd hhash (hgs g (List.mem_cons_self g gr))
        · rw [if_neg hhash] at h
          by_cases hne : g ≠ c
          · rw [if_pos hne] at h
            cases h
          · rw [if_neg hne] at h
            push_neg at hne
            obtain ⟨hlen, hF⟩ := ih (fun s hs => hgs s (List.mem_cons_of_mem g hs)) h
            refine ⟨by simpa using Nat.succ_le_succ hlen, ?_⟩
            simp only [List.length_cons, List.take_succ_cons]
            exact List.Forall₂.cons (Or.inr hne) hF

theorem coversWalk_hash_end {gs ts : List (List Char)}
    (hgs : ∀ seg ∈ gs, seg ≠ WILDCARD_MULTI_LEVEL)
    (h : coversWalk false (gs ++ [WILDCARD_MULTI_LEVEL]) ts = true) :
    gs.length + 1 ≤ ts.length ∧ List.Forall₂ segMatch gs (ts.take gs.length) := by
  induction gs generalizing ts with
  | nil =>
    cases ts with
    | nil => simp [coversWalk] at h
    | cons c cr => simp
  | cons g gr ih =>
    cases ts with
    | nil => simp [coversWalk] at h
    | cons c cr =>
      rw [List.cons_append] at h
      simp only [coversWalk] at h
      by_cases hplus : g = WILDCARD_SINGLE_LEVEL
      · rw [if_pos hplus] at h
        simp only [Bool.false_and, Bool.false_eq_true, if_false] at h
        obtain ⟨hlen, hF⟩ := ih (fun s hs => hgs s (List.mem_cons_of_mem g hs)) h
        refine ⟨by simpa using Nat.succ_le_succ hlen, ?_⟩
        simp only [List.length_cons, List.take_succ_cons]
        exact List.Forall₂.cons (Or.inl hplus) hF
      · rw [if_neg hplus] at h
        by_cases hhash : g = WILDCARD_MULTI_LEVEL
        · exact absurd hhash (hgs g (List.mem_cons_self g gr))
        · rw [if_neg hhash] at h
          by_cases hne : g ≠ c
          · rw [if_pos hne] at h
            cases h
          · rw [if_neg hne] at h
            push_neg at hne
            obtain ⟨hlen, hF⟩ := ih (fun s hs => hgs s (List.mem_cons_of_mem g hs)) h
            refine ⟨by simpa using Nat.succ_le_succ hlen, ?_⟩
            simp only [List.length_cons, List.take_succ_cons]
            exact List.Forall₂.cons (Or.inr hne) hF

theorem forall₂_segMatch_literal {b u : List (List Char)}
    (h : List.Forall₂ segMatch b u)
    (hb : ∀ seg ∈ b, seg ≠ WILDCARD_SINGLE_LEVEL) : b = u := by
  induction h with
  | nil => rfl
  | @cons a a' l₁ l₂ h1 h2 ih =>
    rcases h1 with h1 | h1
    · exact absurd h1 (hb a (by simp))
    · rw [h1, ih (fun s hs => hb s (List.mem_cons_of_mem _ hs))]

theorem block_landing {gsM ts : List (List Char)}
    (hF : List.Forall₂ segMatch gsM (ts.take gsM.length)) {x B y : List (List Char)}
    (hdecomp : gsM = x ++ B ++ y)
    (hB : ∀ seg ∈ B, seg ≠ WILDCARD_SINGLE_LEVEL) :
    ∃ t₁ t₃, ts = t₁ ++ B ++ t₃ ∧ t₁.length = x.length ∧
      t₃.length = y.length + (ts.length - gsM.length) := by
  subst hdecomp
  have hassoc : x ++ B ++ y = x ++ (B ++ y) := List.append_assoc x B y
  rw [hassoc] at hF
  have hFx := List.forall₂_take x.length hF
  rw [List.take_left] at hFx
  have hFr := List.forall₂_drop x.length hF
  rw [List.drop_left] at hFr
  have hFB := List.forall₂_take B.length hFr
  rw [List.take_left] at hFB
  have hFy := List.forall₂_drop B.length hFr
  rw [List.drop_left] at hFy
  have hBeq := forall₂_segMatch_literal hFB hB
  have hl₁ : ((ts.take (x ++ (B ++ y)).length).take x.length).length = x.length :=
    (List.Forall₂.length_eq hFx).symm
  have hl₃ : (((ts.take (x ++ (B ++ y)).length).drop x.length).drop B.length).length
      = y.length := (List.Forall₂.length_eq hFy).symm
  set u := ts.take (x ++ (B ++ y)).length with hudef
  set r := ts.drop (x ++ (B ++ y)).length with hrdef
  have hts : ts = u ++ r := (List.take_append_drop _ ts).symm
  have hu2 : u = u.take x.length ++ B ++ (u.drop x.length).drop B.length := by
    conv_lhs => rw [← List.take_append_drop x.length u,
      ← List.take_append_drop B.length (u.drop x.length)]
    rw [← hBeq]
    simp [List.append_assoc]
  refine ⟨u.take x.length, (u.drop x.length).drop B.length ++ r, ?_, hl₁, ?_⟩
  · calc ts = u ++ r := hts
      _ = (u.take x.length ++ B ++ (u.drop x.length).drop B.length) ++ r := by
          rw [← hu2]
      _ = u.take x.length ++ B ++ ((u.drop x.length).drop B.length ++ r) := by
          simp [List.append_assoc]
  · rw [List.length_append, hl₃, hrdef, List.length_drop]
    simp [List.append_assoc]

theorem isPrefixOf_of_pref {a b : List Char} (h : a <+: b) : a.isPrefixOf b = true :=
  List.isPrefixOf_iff_prefix.mpr h

theorem isSuffixOf_of_suff {a b : List Char} (h : a <:+ b) : a.isSuffixOf b = true :=
  List.isSuffixOf_iff_suffix.mpr h

theorem strIn_intro {p h : List Char} (hi : p <:+: h) : strIn p h = true :=
  (strIn_infix_iff p h).mpr hi

theorem getLastD_append_right (x : List α) {l : List α} (h : l ≠ []) (d : α) :
    (x ++ l).getLastD d = l.getLastD d := by
  induction x with
  | nil => rfl
  | cons a x' ih =>
    rw [List.cons_append, List.getLastD_cons,
      getLastD_ne_nil (show x' ++ l ≠ [] by simp [h]) a d, ih]

theorem concat_of_ne_nil {l : List α} (h : l ≠ []) :
    ∃ L b, l = L ++ [b] := by
  rcases List.eq_nil_or_concat l with h1 | ⟨L, b, h1⟩
  · exact absurd h1 h
  · exact ⟨L, b, by rw [h1, List.concat_eq_append]⟩

/-! ### `get_candidates` as a single filter over the store -/

theorem foldl_filter (f : List Char → Topic → Bool) (ps : List (List Char))
    (l : List Topic) :
    ps.foldl (fun cs p => cs.filter (fun t => f p t)) l =
      l.filter (fun t => ps.all (fun p => f p t)) := by
  induction ps generalizing l with
  | nil => simp
  | cons p ps ih =>
    rw [List.foldl_cons, ih, List.filter_filter]
    refine List.filter_congr (fun t ht => ?_)
    rw [List.all_cons]
    exact Bool.and_comm _ _

theorem get_candidates_eq (self : Topic) (store : List Topic) :
    self.get_candidates store = store.filter
      (fun t => (t.dollar == self.is_dollar && t.wildcard == false) &&
        prefCond self t) := by
  unfold Topic.get_candidates prefCond
  by_cases h4 : WILDCARD_MULTI_LEVEL.isSuffixOf self.name
  · simp only [if_pos h4]
    by_cases h1 : (pySplit '+' self.name.dropLast).length = 1
    · by_cases h2 : self.name.dropLast.length ≠ 0
      · simp only [if_pos h1, if_pos h2, List.filter_filter]
        exact List.filter_congr (fun t ht => Bool.and_comm _ _)
      · simp only [if_pos h1, if_neg h2]
        exact (List.filter_congr (fun t ht => Bool.and_true _)).symm
    · by_cases h3 : self.name.dropLast = WILDCARD_SINGLE_LEVEL
      · simp only [if_neg h1, if_pos h3, List.filter_filter]
        exact List.filter_congr (fun t ht => Bool.and_comm _ _)
      · simp only [if_neg h1, if_neg h3]
        rw [foldl_filter (fun p t => strIn p t.name)]
        simp only [List.filter_filter]
        refine List.filter_congr (fun t ht => ?_)
        simp [Bool.and_assoc, Bool.and_comm, Bool.and_left_comm]
  · simp only [if_neg h4]
    by_cases h1 : (pySplit '+' self.name).length = 1
    · by_cases h2 : self.name.length ≠ 0
      · simp only [if_pos h1, if_pos h2, List.filter_filter]
        exact List.filter_congr (fun t ht => Bool.and_comm _ _)
      · simp only [if_pos h1, if_neg h2]
        exact (List.filter_congr (fun t ht => Bool.and_true _)).symm
    · by_cases h3 : self.name = WILDCARD_SINGLE_LEVEL
      · simp only [if_neg h1, if_pos h3, List.filter_filter]
        exact List.filter_congr (fun t ht => Bool.and_comm _ _)
      · simp only [if_neg h1, if_neg h3]
        rw [foldl_filter (fun p t => strIn p t.name)]
        simp only [List.filter_filter]
        refine List.filter_congr (fun t ht => ?_)
        simp [Bool.and_assoc, Bool.and_comm, Bool.and_left_comm]

/-! ### From a matched segment walk to the string-level prefilter facts -/

theorem pref_of_landing {ts gsM b₀ y : List (List Char)}
    (hF : List.Forall₂ segMatch gsM (ts.take gsM.length))
    (hdecomp : gsM = b₀ ++ y)
    (hclean : ∀ seg ∈ b₀, seg ≠ WILDCARD_SINGLE_LEVEL)
    (hy : 1 ≤ y.length + (ts.length - gsM.length)) :
    (joinSep TOPIC_SEP (b₀ ++ [[]])).isPrefixOf (joinSep TOPIC_SEP ts) = true := by
  obtain ⟨t₁, t₃, hts, hl₁, hl₃⟩ :=
    block_landing hF (show gsM = [] ++ b₀ ++ y by simpa using hdecomp) hclean
  have ht₁ : t₁ = [] := List.eq_nil_of_length_eq_zero (by rw [hl₁]; rfl)
  subst ht₁
  have ht₃ : t₃ ≠ [] := by
    rw [← List.length_pos, hl₃]
    omega
  rw [hts]
  simp only [List.nil_append]
  exact isPrefixOf_of_pref (joinSep_pref TOPIC_SEP ht₃)

theorem suff_of_landing {ts gsM x bl : List (List Char)}
    (hF : List.Forall₂ segMatch gsM (ts.take gsM.length))
    (hdecomp : gsM = x ++ bl)
    (hx : x ≠ [])
    (hclean : ∀ seg ∈ bl, seg ≠ WILDCARD_SINGLE_LEVEL)
    (hlen : ts.length = gsM.length) :
    (joinSep TOPIC_SEP ([] :: bl)).isSuffixOf (joinSep TOPIC_SEP ts) = true := by
  by_cases hbl : bl = []
  · subst hbl
    exact isSuffixOf_of_suff List.nil_suffix
  · obtain ⟨t₁, t₃, hts, hl₁, hl₃⟩ :=
      block_landing hF (show gsM = x ++ bl ++ [] by simpa using hdecomp) hclean
    have ht₃ : t₃ = [] := List.eq_nil_of_length_eq_zero (by rw [hl₃, hlen]; simp)
    subst ht₃
    have ht₁ : t₁ ≠ [] := by
      rw [← List.length_pos, hl₁, List.length_pos]
      exact hx
    rw [hts]
    simp only [List.append_nil]
    rw [joinSep_cons TOPIC_SEP [] hbl]
    exact isSuffixOf_of_suff (joinSep_suff TOPIC_SEP ht₁ hbl)

theorem infix_of_landing {ts gsM x b y : List (List Char)}
    (hF : List.Forall₂ segMatch gsM (ts.take gsM.length))
    (hdecomp : gsM = x ++ b ++ y)
    (hx : x ≠ [])
    (hclean : ∀ seg ∈ b, seg ≠ WILDCARD_SINGLE_LEVEL)
    (hy : 1 ≤ y.length + (ts.length - gsM.length)) :
    strIn (joinSep TOPIC_SEP ([] :: (b ++ [[]]))) (joinSep TOPIC_SEP ts) = true := by
  obtain ⟨t₁, t₃, hts, hl₁, hl₃⟩ := block_landing hF hdecomp hclean
  have ht₁ : t₁ ≠ [] := by
    rw [← List.length_pos, hl₁, List.length_pos]
    exact hx
  have ht₃ : t₃ ≠ [] := by
    rw [← List.length_pos, hl₃]
    omega
  rw [hts]
  exact strIn_intro (joinSep_infix_pattern TOPIC_SEP ht₁ ht₃)

/-! ### Characterisation of `Topic.covers` as explicit conditions -/

theorem covers_true_elim {self comp : Topic} (h : self.covers comp = true) :
    comp.name.isEmpty = false ∧
    (self.name = comp.name ∨
      (self.is_wildcard = true ∧
       ((self.is_dollar && !comp.is_dollar) || (comp.is_dollar && !self.is_dollar)) = false ∧
       (self.is_dollar &&
         ((pySplit TOPIC_SEP self.name).headD [] != (pySplit TOPIC_SEP comp.name).headD [])) = false ∧
       (pySplit TOPIC_SEP self.name).length ≤ (pySplit TOPIC_SEP comp.name).length ∧
       (WILDCARD_MULTI_LEVEL.isSuffixOf self.name = false →
          (pySplit TOPIC_SEP comp.name).length = (pySplit TOPIC_SEP self.name).length) ∧
       coversWalk comp.is_wildcard (pySplit TOPIC_SEP self.name)
         (pySplit TOPIC_SEP comp.name) = true)) := by
  unfold Topic.covers at h
  by_cases h0 : comp.name.isEmpty = true
  · rw [if_pos h0] at h
    exact absurd h (by simp)
  · have h0' : comp.name.isEmpty = false := eq_false_of_ne_true h0
    refine ⟨h0', ?_⟩
    rw [if_neg h0] at h
    by_cases h1 : self.name = comp.name
    · exact Or.inl h1
    · right
      rw [if_neg h1] at h
      by_cases h2 : (!self.is_wildcard) = true
      · rw [if_pos h2] at h
        exact absurd h (by simp)
      · have h2' : self.is_wildcard = true := by
          cases hx : self.is_wildcard
          · exact absurd (by simp [hx]) h2
          · rfl
        rw [if_neg h2] at h
        refine ⟨h2', ?_⟩
        by_cases h3 : ((self.is_dollar && !comp.is_dollar) ||
            (comp.is_dollar && !self.is_dollar)) = true
        · rw [if_pos h3] at h
          exact absurd h (by simp)
        · rw [if_neg h3] at h
          refine ⟨eq_false_of_ne_true h3, ?_⟩
          by_cases h4 : (self.is_dollar &&
              ((pySplit TOPIC_SEP self.name).headD [] !=
               (pySplit TOPIC_SEP comp.name).headD [])) = true
          · rw [if_pos h4] at h
            exact absurd h (by simp)
          · rw [if_neg h4] at h
            refine ⟨eq_false_of_ne_true h4, ?_⟩
            by_cases h5 : (pySplit TOPIC_SEP comp.name).length <
                (pySplit TOPIC_SEP self.name).length
            · rw [if_pos h5] at h
              exact absurd h (by simp)
            · rw [if_neg h5] at h
              refine ⟨Nat.le_of_not_lt h5, ?_⟩
              by_cases h6 : (!(WILDCARD_MULTI_LEVEL.isSuffixOf self.name) &&
                  decide ((pySplit TOPIC_SEP comp.name).length >
                    (pySplit TOPIC_SEP self.name).length)) = true
              · rw [if_pos h6] at h
                exact absurd h (by simp)
              · rw [if_neg h6] at h
                refine ⟨?_, h⟩
                intro hs
                simp only [hs, Bool.not_false, Bool.true_and,
                  decide_eq_true_eq] at h6
                omega

theorem covers_true_of_eq {self comp : Topic} (h0 : comp.name.isEmpty = false)
    (he : self.name = comp.name) : self.covers comp = true := by
  unfold Topic.covers
  simp [h0, he]

theorem covers_true_intro {self comp : Topic}
    (h0 : comp.name.isEmpty = false)
    (hw : self.is_wildcard = true)
    (hgate : ((self.is_dollar && !comp.is_dollar) ||
      (comp.is_dollar && !self.is_dollar)) = false)
    (hhead : (self.is_dollar &&
      ((pySplit TOPIC_SEP self.name).headD [] !=
       (pySplit TOPIC_SEP comp.name).headD [])) = false)
    (hlen : ¬ (pySplit TOPIC_SEP comp.name).length < (pySplit TOPIC_SEP self.name).length)
    (hmulti : WILDCARD_MULTI_LEVEL.isSuffixOf self.name = true ∨
      ¬ (pySplit TOPIC_SEP comp.name).length > (pySplit TOPIC_SEP self.name).length)
    (hwalk : coversWalk comp.is_wildcard (pySplit TOPIC_SEP self.name)
      (pySplit TOPIC_SEP comp.name) = true) : self.covers comp = true := by
  unfold Topic.covers
  by_cases h1 : self.name = comp.name
  · simp [h0, h1]
  · have h6 : (!(WILDCARD_MULTI_LEVEL.isSuffixOf self.name) &&
      decide ((pySplit TOPIC_SEP comp.name).length >
        (pySplit TOPIC_SEP self.name).length)) = false := by
      rcases hmulti with hm | hm
      · simp [hm]
      · simp [hm]
    simp only [h0, Bool.false_eq_true, if_false, if_neg h1, hw, Bool.not_true,
      hgate, hhead, if_neg hlen, h6, hwalk]

/-! ### Necessity of the prefilter: a covered stored topic passes it -/

theorem prefCond_of_covers {F t : Topic}
    (hval : validTopicName F.name = true)
    (hFw : F.is_wildcard = true)
    (htw : t.is_wildcard = false)
    (hcov : F.covers t = true) :
    prefCond F t = true := by
  have htname : joinSep TOPIC_SEP (pySplit TOPIC_SEP t.name) = t.name :=
    joinSep_pySplit _ _
  have hfname : joinSep TOPIC_SEP (pySplit TOPIC_SEP F.name) = F.name :=
    joinSep_pySplit _ _
  have hneq : ¬ F.name = t.name := by
    intro he
    rw [is_wildcard_eq_false_iff] at htw
    rcases (is_wildcard_iff F).mp hFw with h | h
    · exact htw.1 (he ▸ h)
    · exact htw.2 (he ▸ h)
  obtain ⟨hne0, hdisj⟩ := covers_true_elim hcov
  rcases hdisj with he | ⟨_, _, _, hlen, hlen2, hwalk⟩
  · exact absurd he hneq
  rw [htw] at hwalk
  have hval2 : validSegsAux (pySplit TOPIC_SEP F.name) = true := by
    unfold validTopicName at hval
    simp only [Bool.and_eq_true] at hval
    exact hval.2
  obtain ⟨gs, last, hfseq, hgs, hlast⟩ :=
    validSegsAux_elim hval2 (pySplit_ne_nil _ _)
  have hgs_ne_hash : ∀ seg ∈ gs, seg ≠ WILDCARD_MULTI_LEVEL := by
    intro seg hs he
    exact (hgs seg hs).1 (by rw [he]; decide)
  unfold prefCond
  by_cases hmulti : WILDCARD_MULTI_LEVEL.isSuffixOf F.name = true
  · -- multi-level case: the filter ends in `#`
    have hlast_hash : last = WILDCARD_MULTI_LEVEL := by
      obtain ⟨y, hy⟩ := List.isSuffixOf_iff_suffix.mp hmulti
      have hmem : '#' ∈ F.name := by
        rw [← hy]
        exact List.mem_append.mpr (Or.inr (by decide))
      rw [← hfname] at hmem
      rcases mem_joinSep hmem with hsep | ⟨p, hp, hcp⟩
      · exact absurd hsep (by decide)
      · rw [hfseq] at hp
        rcases List.mem_append.mp hp with hp1 | hp2
        · exact absurd hcp ((hgs p hp1).1)
        · have hpl : p = last := by simpa using hp2
          subst hpl
          rcases hlast with h | h
          · exact h
          · exact absurd hcp h.1
    subst hlast_hash
    have htopic : F.name.dropLast = joinSep TOPIC_SEP (gs ++ [[]]) := by
      rw [← hfname, hfseq]
      by_cases hgsnil : gs = []
      · subst hgsnil
        rfl
      · rw [joinSep_append TOPIC_SEP hgsnil (by simp),
          joinSep_append TOPIC_SEP hgsnil (by simp)]
        have hsplit2 : joinSep TOPIC_SEP gs ++
            TOPIC_SEP :: joinSep TOPIC_SEP [WILDCARD_MULTI_LEVEL] =
            (joinSep TOPIC_SEP gs ++ [TOPIC_SEP]) ++ ['#'] := by
          simp [joinSep, WILDCARD_MULTI_LEVEL]
        rw [hsplit2, List.dropLast_concat]
        rfl
    have hplusgs : ∀ seg ∈ gs, '+' ∈ seg → seg = WILDCARD_SINGLE_LEVEL :=
      fun seg hs => (hgs seg hs).2
    have hclean_b : ∀ b ∈ pySplit (['+'] : List Char) (gs ++ [[]]),
        ∀ seg ∈ b, '+' ∉ seg := by
      intro b hb seg hsegb hplus
      have h1 : (['+'] : List Char) ∉ b := pySplit_mem_not_sep hb
      have h2 : seg ∈ gs ++ [[]] := pySplit_mem_subset hb seg hsegb
      rcases List.mem_append.mp h2 with h3 | h3
      · have hseg' : seg = (['+'] : List Char) := hplusgs seg h3 hplus
        exact h1 (hseg' ▸ hsegb)
      · have h4 : seg = [] := by simpa using h3
        rw [h4] at hplus
        cases hplus
    have hbj : joinSep (['+'] : List Char) (pySplit (['+'] : List Char) (gs ++ [[]])) =
        gs ++ [[]] := joinSep_pySplit _ _
    have hcross : pySplit '+' F.name.dropLast =
        padParts TOPIC_SEP (pySplit (['+'] : List Char) (gs ++ [[]])) := by
      rw [htopic]
      conv_lhs => rw [← hbj]
      exact @pySplit_joinSep_blocks Char _ TOPIC_SEP '+' (by decide) _
        (pySplit_ne_nil _ _) hclean_b
    rw [hfseq] at hwalk
    obtain ⟨hlen1, hF⟩ := coversWalk_hash_end hgs_ne_hash hwalk
    simp only [if_pos hmulti]
    rw [hcross, htopic, ← htname]
    cases hblk : pySplit (['+'] : List Char) (gs ++ [[]]) with
    | nil => exact absurd hblk (pySplit_ne_nil _ _)
    | cons b₀ brest =>
      rw [hblk] at hbj hclean_b
      cases brest with
      | nil =>
        -- a single block: no `+` in the filter at all
        have hb₀ : b₀ = gs ++ [[]] := by simpa [joinSep] using hbj
        have hlen_one : (padParts TOPIC_SEP [b₀]).length = 1 := by
          rw [padParts_length]
          rfl
        simp only [if_pos hlen_one]
        by_cases hgsnil : gs = []
        · subst hgsnil
          simp [joinSep]
        · have hta : joinSep TOPIC_SEP (gs ++ [[]]) ≠ [] := by
            rw [joinSep_append TOPIC_SEP hgsnil (by simp)]
            simp
          have hcond : (joinSep TOPIC_SEP (gs ++ [[]])).length ≠ 0 := by
            simpa [List.length_eq_zero] using hta
          simp only [if_pos hcond]
          refine pref_of_landing hF (show gs = gs ++ [] by simp) ?_ ?_
          · intro seg hs he
            exact hclean_b b₀ (by simp) seg (hb₀ ▸ List.mem_append.mpr (Or.inl hs))
              (by rw [he]; decide)
          · omega
      | cons b₂ brest₂ =>
        have hlen_ge : ¬ (padParts TOPIC_SEP (b₀ :: b₂ :: brest₂)).length = 1 := by
          rw [padParts_length]
          simp
        simp only [if_neg hlen_ge]
        have hplusne : ¬ joinSep TOPIC_SEP (gs ++ [[]]) = WILDCARD_SINGLE_LEVEL := by
          by_cases hgsnil : gs = []
          · subst hgsnil
            intro hcontra
            cases hcontra
          · rw [joinSep_append TOPIC_SEP hgsnil (by simp)]
            intro hcontra
            have h1 : (joinSep TOPIC_SEP gs ++
                TOPIC_SEP :: joinSep TOPIC_SEP [[]]).getLastD 'x' = '/' := by
              have h2 : joinSep TOPIC_SEP gs ++ TOPIC_SEP :: joinSep TOPIC_SEP [[]] =
                  joinSep TOPIC_SEP gs ++ ['/'] := rfl
              rw [h2, List.getLastD_concat]
            rw [hcontra] at h1
            cases h1
        simp only [if_neg hplusne]
        have hR₂ : gs ++ [[]] = b₀ ++ ['+'] :: joinSep (['+'] : List Char) (b₂ :: brest₂) := by
          rw [← hbj, joinSep_cons (['+'] : List Char) b₀ (by simp)]
        have hgseq : gs = b₀ ++ (['+'] :: joinSep (['+'] : List Char) (b₂ :: brest₂)).dropLast := by
          have h1 : (gs ++ [[]]).dropLast = gs := List.dropLast_concat
          rw [← h1, hR₂, List.dropLast_append_of_ne_nil _ (by simp)]
        have hcb₀ : ∀ seg ∈ b₀, seg ≠ WILDCARD_SINGLE_LEVEL := by
          intro seg hs he
          exact hclean_b b₀ (by simp) seg hs (by rw [he]; decide)
        simp only [Bool.and_eq_true]
        refine ⟨⟨?_, ?_⟩, ?_⟩
        · -- prefix condition
          rw [padParts_headD TOPIC_SEP b₀ (by simp)]
          exact pref_of_landing hF hgseq hcb₀ (by omega)
        · -- trailing contains condition
          rw [padParts_getLastD TOPIC_SEP b₀ (by simp)]
          obtain ⟨binit, blx, hbrest⟩ := concat_of_ne_nil
            (show (b₂ :: brest₂ : List (List (List Char))) ≠ [] by simp)
          have hgl : (b₂ :: brest₂).getLastD ([] : List (List Char)) = blx := by
            rw [hbrest, List.getLastD_concat]
          rw [hgl]
          have hjoin : gs ++ [[]] =
              joinSep (['+'] : List Char) (b₀ :: binit) ++ ['+'] :: blx := by
            rw [← hbj, hbrest,
              show (b₀ :: (binit ++ [blx]) : List (List (List Char))) =
                (b₀ :: binit) ++ [blx] by simp,
              joinSep_append (['+'] : List Char) (by simp) (by simp)]
            rfl
          have hblx_ne : blx ≠ [] := by
            intro hcontra
            rw [hcontra] at hjoin
            have h1 : (gs ++ [[]]).getLastD ['x'] = [] := List.getLastD_concat _ _ _
            rw [hjoin] at h1
            have h2 : (joinSep (['+'] : List Char) (b₀ :: binit) ++
                ['+'] :: ([] : List (List Char))).getLastD ['x'] = ['+'] := by
              rw [getLastD_append_right _ (by simp), List.getLastD_cons]
              rfl
            rw [h2] at h1
            cases h1
          have hblx_last : blx.getLastD ['x'] = [] := by
            have h1 : (gs ++ [[]]).getLastD ['x'] = [] := List.getLastD_concat _ _ _
            rw [hjoin, getLastD_append_right _ (by simp), List.getLastD_cons,
              getLastD_ne_nil hblx_ne ['+'] ['x']] at h1
            exact h1
          obtain ⟨blx', bll, hblx⟩ := concat_of_ne_nil hblx_ne
          have hbll : bll = [] := by
            rw [hblx, List.getLastD_concat] at hblx_last
            exact hblx_last
          subst hbll
          rw [hblx]
          have hgseq2 : gs = (joinSep (['+'] : List Char) (b₀ :: binit) ++ [['+']]) ++
              blx' ++ [] := by
            have h1 : (gs ++ [[]]).dropLast = gs := List.dropLast_concat
            rw [← h1, hjoin, hblx]
            rw [show joinSep (['+'] : List Char) (b₀ :: binit) ++
                ['+'] :: (blx' ++ [[]]) =
                ((joinSep (['+'] : List Char) (b₀ :: binit) ++ [['+']]) ++ blx') ++ [[]]
              by simp]
            rw [List.dropLast_concat]
            simp
          have hcblx' : ∀ seg ∈ blx', seg ≠ WILDCARD_SINGLE_LEVEL := by
            intro seg hs he
            refine hclean_b blx ?_ seg ?_ (by rw [he]; decide)
            · rw [hbrest]
              exact List.mem_cons_of_mem b₀ (List.mem_append.mpr (Or.inr (by simp)))
            · rw [hblx]
              exact List.mem_append.mpr (Or.inl hs)
          exact infix_of_landing hF hgseq2 (by simp) hcblx' (by omega)
        · -- interior contains conditions
          rw [List.all_eq_true]
          intro p hp
          have hp2 := List.mem_dedup.mp hp
          obtain ⟨bs₁, bmid, bs₂, hbdec, hbs₁, hbs₂, hpe⟩ :=
            padParts_interior TOPIC_SEP hp2
          subst hpe
          have hC : gs ++ [[]] = joinSep (['+'] : List Char) bs₁ ++
              ['+'] :: (bmid ++ ['+'] :: joinSep (['+'] : List Char) bs₂) := by
            rw [← hbj, hbdec, joinSep_append (['+'] : List Char) hbs₁ (by simp),
              joinSep_cons (['+'] : List Char) bmid hbs₂]
          have hCne : joinSep (['+'] : List Char) bs₂ ≠ [] := by
            intro hcontra
            rw [hcontra] at hC
            have h1 : (gs ++ [[]]).getLastD ['x'] = [] := List.getLastD_concat _ _ _
            rw [hC] at h1
            have h2 : (joinSep (['+'] : List Char) bs₁ ++
                ['+'] :: (bmid ++ ['+'] :: ([] : List (List Char)))).getLastD ['x']
                = ['+'] := by
              rw [getLastD_append_right _ (by simp), List.getLastD_cons]
              exact List.getLastD_concat _ _ _
            rw [h2] at h1
            cases h1
          have hgseq3 : gs = (joinSep (['+'] : List Char) bs₁ ++ [['+']]) ++ bmid ++
              (['+'] :: (joinSep (['+'] : List Char) bs₂).dropLast) := by
            have h1 : (gs ++ [[]]).dropLast = gs := List.dropLast_concat
            rw [← h1, hC, List.dropLast_append_of_ne_nil _ (by simp),
              List.dropLast_cons_of_ne_nil (by simp),
              List.dropLast_append_of_ne_nil _ (by simp),
              List.dropLast_cons_of_ne_nil hCne]
            simp
          have hcbmid : ∀ seg ∈ bmid, seg ≠ WILDCARD_SINGLE_LEVEL := by
            intro seg hs he
            refine hclean_b bmid ?_ seg hs (by rw [he]; decide)
            rw [hbdec]
            exact List.mem_append.mpr (Or.inr (by simp))
          exact infix_of_landing hF hgseq3 (by simp) hcbmid (by omega)
  · -- non-multi case: the filter does not end in `#`
    have hlast_clean : '#' ∉ last ∧ ('+' ∈ last → last = WILDCARD_SINGLE_LEVEL) := by
      rcases hlast with h | h
      · exfalso
        apply hmulti
        by_cases hgsnil : gs = []
        · rw [← hfname, hfseq, hgsnil, h]
          decide
        · refine isSuffixOf_of_suff ⟨joinSep TOPIC_SEP gs ++ [TOPIC_SEP], ?_⟩
          rw [← hfname, hfseq, h, joinSep_append TOPIC_SEP hgsnil (by simp)]
          simp
          rfl
      · exact h
    have hfs_facts : ∀ seg ∈ pySplit TOPIC_SEP F.name,
        '#' ∉ seg ∧ ('+' ∈ seg → seg = WILDCARD_SINGLE_LEVEL) := by
      intro seg hs
      rw [hfseq] at hs
      rcases List.mem_append.mp hs with h | h
      · exact hgs seg h
      · have h2 : seg = last := by simpa using h
        rw [h2]
        exact hlast_clean
    have hfs_ne_hash : ∀ seg ∈ pySplit TOPIC_SEP F.name,
        seg ≠ WILDCARD_MULTI_LEVEL := by
      intro seg hs he
      exact (hfs_facts seg hs).1 (by rw [he]; decide)
    obtain ⟨hlen1, hF⟩ := coversWalk_no_hash hfs_ne_hash hwalk
    have hmulti' : WILDCARD_MULTI_LEVEL.isSuffixOf F.name = false :=
      eq_false_of_ne_true hmulti
    have hlence : (pySplit TOPIC_SEP t.name).length =
        (pySplit TOPIC_SEP F.name).length := hlen2 hmulti'
    have hclean_b : ∀ b ∈ pySplit (['+'] : List Char) (pySplit TOPIC_SEP F.name),
        ∀ seg ∈ b, '+' ∉ seg := by
      intro b hb seg hsegb hplus
      have h1 : (['+'] : List Char) ∉ b := pySplit_mem_not_sep hb
      have h2 : seg ∈ pySplit TOPIC_SEP F.name := pySplit_mem_subset hb seg hsegb
      have hseg' : seg = (['+'] : List Char) := (hfs_facts seg h2).2 hplus
      exact h1 (hseg' ▸ hsegb)
    have hbj : joinSep (['+'] : List Char)
        (pySplit (['+'] : List Char) (pySplit TOPIC_SEP F.name)) =
        pySplit TOPIC_SEP F.name := joinSep_pySplit _ _
    have hcross : pySplit '+' F.name =
        padParts TOPIC_SEP (pySplit (['+'] : List Char) (pySplit TOPIC_SEP F.name)) := by
      conv_lhs => rw [← hfname, ← hbj]
      exact @pySplit_joinSep_blocks Char _ TOPIC_SEP '+' (by decide) _
        (pySplit_ne_nil _ _) hclean_b
    simp only [if_neg hmulti]
    rw [hcross, ← htname]
    cases hblk : pySplit (['+'] : List Char) (pySplit TOPIC_SEP F.name) with
    | nil => exact absurd hblk (pySplit_ne_nil _ _)
    | cons b₀ brest =>
      rw [hblk] at hbj hclean_b
      cases brest with
      | nil =>
        exfalso
        have hb₀ : b₀ = pySplit TOPIC_SEP F.name := by simpa [joinSep] using hbj
        have hplusfree : '+' ∉ F.name := by
          rw [← hfname]
          refine not_mem_joinSep (by decide) ?_
          intro p hp
          exact hclean_b b₀ (by simp) p (hb₀ ▸ hp)
        have hhashfree : '#' ∉ F.name := by
          rw [← hfname]
          refine not_mem_joinSep (by decide) ?_
          intro p hp
          exact (hfs_facts p hp).1
        rcases (is_wildcard_iff F).mp hFw with h | h
        · exact hhashfree h
        · exact hplusfree h
      | cons b₂ brest₂ =>
        have hlen_ge : ¬ (padParts TOPIC_SEP (b₀ :: b₂ :: brest₂)).length = 1 := by
          rw [padParts_length]
          simp
        simp only [if_neg hlen_ge]
        by_cases hplusname : F.name = WILDCARD_SINGLE_LEVEL
        · simp only [if_pos hplusname]
          have hfs1 : pySplit TOPIC_SEP F.name = [WILDCARD_SINGLE_LEVEL] := by
            rw [hplusname]
            decide
          have hts1 : (pySplit TOPIC_SEP t.name).length = 1 := by
            rw [hlence, hfs1]
            rfl
          have hnm := pySplit_length_eq_one.mp hts1
          rw [htname]
          cases hx : strIn [TOPIC_SEP] t.name
          · rw [Bool.not_false]
          · exact absurd ((strIn_singleton _ _).mp hx) hnm
        · simp only [if_neg hplusname]
          have hR₂ : pySplit TOPIC_SEP F.name =
              b₀ ++ ['+'] :: joinSep (['+'] : List Char) (b₂ :: brest₂) := by
            rw [← hbj, joinSep_cons (['+'] : List Char) b₀ (by simp)]
          have hcb₀ : ∀ seg ∈ b₀, seg ≠ WILDCARD_SINGLE_LEVEL := by
            intro seg hs he
            exact hclean_b b₀ (by simp) seg hs (by rw [he]; decide)
          simp only [Bool.and_eq_true]
          refine ⟨⟨?_, ?_⟩, ?_⟩
          · rw [padParts_headD TOPIC_SEP b₀ (by simp)]
            refine pref_of_landing hF hR₂ hcb₀ ?_
            rw [List.length_cons]
            omega
          · rw [padParts_getLastD TOPIC_SEP b₀ (by simp)]
            obtain ⟨binit, blx, hbrest⟩ := concat_of_ne_nil
              (show (b₂ :: brest₂ : List (List (List Char))) ≠ [] by simp)
            have hgl : (b₂ :: brest₂).getLastD ([] : List (List Char)) = blx := by
              rw [hbrest, List.getLastD_concat]
            rw [hgl]
            have hjoin : pySplit TOPIC_SEP F.name =
                (joinSep (['+'] : List Char) (b₀ :: binit) ++ [['+']]) ++ blx := by
              rw [← hbj, hbrest,
                show (b₀ :: (binit ++ [blx]) : List (List (List Char))) =
                  (b₀ :: binit) ++ [blx] by simp,
                joinSep_append (['+'] : List Char) (by simp) (by simp)]
              simp [joinSep]
            have hcblx : ∀ seg ∈ blx, seg ≠ WILDCARD_SINGLE_LEVEL := by
              intro seg hs he
              refine hclean_b blx ?_ seg hs (by rw [he]; decide)
              rw [hbrest]
              exact List.mem_cons_of_mem b₀ (List.mem_append.mpr (Or.inr (by simp)))
            exact suff_of_landing hF hjoin (by simp) hcblx hlence
          · rw [List.all_eq_true]
            intro p hp
            have hp2 := List.mem_dedup.mp hp
            obtain ⟨bs₁, bmid, bs₂, hbdec, hbs₁, hbs₂, hpe⟩ :=
              padParts_interior TOPIC_SEP hp2
            subst hpe
            have hC : pySplit TOPIC_SEP F.name =
                (joinSep (['+'] : List Char) bs₁ ++ [['+']]) ++ bmid ++
                (['+'] :: joinSep (['+'] : List Char) bs₂) := by
              rw [← hbj, hbdec, joinSep_append (['+'] : List Char) hbs₁ (by simp),
                joinSep_cons (['+'] : List Char) bmid hbs₂]
              simp
            have hcbmid : ∀ seg ∈ bmid, seg ≠ WILDCARD_SINGLE_LEVEL := by
              intro seg hs he
              refine hclean_b bmid ?_ seg hs (by rw [he]; decide)
              rw [hbdec]
              exact List.mem_append.mpr (Or.inr (by simp))
            exact infix_of_landing hF hC (by simp) hcbmid
              (by rw [List.length_cons]; omega)

theorem covered_mem_get_candidates {F t : Topic} {store : List Topic}
    (hval : validTopicName F.name = true) (hFw : F.is_wildcard = true)
    (ht : t ∈ store) (htwf : t.wildcard = false) (htw : t.is_wildcard = false)
    (htd : t.dollar = t.is_dollar) (hcov : F.covers t = true) :
    t ∈ F.get_candidates store := by
  rw [get_candidates_eq]
  refine List.mem_filter.mpr ⟨ht, ?_⟩
  have hdol : F.is_dollar = t.is_dollar := by
    obtain ⟨hne0, hdisj⟩ := covers_true_elim hcov
    rcases hdisj with he | ⟨_, hgate, _⟩
    · unfold Topic.is_dollar
      rw [he]
    · cases hFd : F.is_dollar <;> cases hTd : t.is_dollar
      · rfl
      · rw [hFd, hTd] at hgate
        simp at hgate
      · rw [hFd, hTd] at hgate
        simp at hgate
      · rfl
  have hclass : (t.dollar == F.is_dollar && t.wildcard == false) = true := by
    rw [htd, ← hdol, htwf]
    simp
  rw [hclass]
  simp only [Bool.true_and]
  exact prefCond_of_covers hval hFw htw hcov

theorem iterT_eq {F : Topic} {store : List Topic}
    (hval : validTopicName F.name = true) (hFw : F.is_wildcard = true)
    (hcons : ∀ t ∈ store, t.wildcard = t.is_wildcard ∧ t.dollar = t.is_dollar) :
    F.iterT store = store.filter
      (fun t => t.dollar == F.is_dollar && !t.wildcard && F.covers t) := by
  unfold Topic.iterT
  rw [if_neg (by simp [hFw]), get_candidates_eq, List.filter_filter]
  refine List.filter_congr (fun t ht => ?_)
  cases hcv : F.covers t
  · simp [hcv]
  · cases hdl : (t.dollar == F.is_dollar)
    · simp [hcv, hdl]
    · cases hwc : t.wildcard
      · have htw : t.is_wildcard = false := by
          rw [← (hcons t ht).1, hwc]
        have hpref := prefCond_of_covers hval hFw htw hcv
        simp [hcv, hdl, hwc, hpref]
      · simp [hcv, hdl, hwc]

/-! ### Claim C9: the candidate prefilter is complete -/

/-- Claim C9: for a grammar-valid wildcard filter, the prefilter derived
from its literal segments is a necessary condition — every stored
non-wildcard topic of the filter's dollar class that the filter covers
satisfies all prefix/suffix/contains conditions (`prefCond`) and is hence
returned by `get_candidates`; and iterating the filter over a store whose
flag columns are consistent yields exactly the stored non-wildcard
same-dollar-class topics the filter covers, in store order. -/
theorem C9_prefilter :
    (∀ (F t : Topic) (store : List Topic),
      validTopicName F.name = true → F.is_wildcard = true →
      t ∈ store → t.wildcard = false → t.is_wildcard = false →
      t.dollar = t.is_dollar → F.covers t = true →
      (prefCond F t = true ∧ t ∈ F.get_candidates store))
    ∧ (∀ (F : Topic) (store : List Topic),
      validTopicName F.name = true → F.is_wildcard = true →
      (∀ t ∈ store, t.wildcard = t.is_wildcard ∧ t.dollar = t.is_dollar) →
      F.iterT store = store.filter
        (fun t => t.dollar == F.is_dollar && !t.wildcard && F.covers t)) := by
  constructor
  · intro F t store hval hFw ht htwf htw htd hcov
    exact ⟨prefCond_of_covers hval hFw htw hcov,
      covered_mem_get_candidates hval hFw ht htwf htw htd hcov⟩
  · intro F store hval hFw hcons
    exact iterT_eq hval hFw hcons

/-- Witness for C9 at a concrete filter, topic and store. -/
theorem C9_witness :
    (prefCond (Topic.mkSaved "a/+/c") (Topic.mkSaved "a/b/c") = true
      ∧ Topic.mkSaved "a/b/c" ∈
        (Topic.mkSaved "a/+/c").get_candidates [Topic.mkSaved "a/b/c"])
    ∧ (Topic.mkSaved "a/#").iterT [Topic.mkSaved "a/b", Topic.mkSaved "b/c"] =
      List.filter (fun t => t.dollar == (Topic.mkSaved "a/#").is_dollar &&
        !t.wildcard && (Topic.mkSaved "a/#").covers t)
        [Topic.mkSaved "a/b", Topic.mkSaved "b/c"] :=
  ⟨C9_prefilter.1 (Topic.mkSaved "a/+/c") (Topic.mkSaved "a/b/c")
      [Topic.mkSaved "a/b/c"] (by decide) (by decide) (by decide) (by decide)
      (by decide) (by decide) (by decide),
   C9_prefilter.2 (Topic.mkSaved "a/#") [Topic.mkSaved "a/b", Topic.mkSaved "b/c"]
      (by decide) (by decide) (by decide)⟩

/-! ### Claim C2: what `a/#` covers -/

/-- Claim C2 as frozen is false on the code: the source returns `False`
whenever the compared topic has fewer separator segments than the filter
(line 143-144 of `models.py`), before the `#` segment is ever reached, so
the filter `a/#` does not cover the parent topic `a`. -/
theorem C2_counterexample :
    (Topic.mkT "a/#").covers (Topic.mkT "a") = false := by decide

/-- Claim C2, amended: the filter `a/#` covers `a/b` and `a/b/c` and
covers neither `b/a` nor the parent topic `a` (a filter with more
segments than the compared topic never covers it, even with a trailing
`#`). -/
theorem C2_amended :
    (Topic.mkT "a/#").covers (Topic.mkT "a/b") = true
    ∧ (Topic.mkT "a/#").covers (Topic.mkT "a/b/c") = true
    ∧ (Topic.mkT "a/#").covers (Topic.mkT "b/a") = false
    ∧ (Topic.mkT "a/#").covers (Topic.mkT "a") = false := by decide

/-! ### Claim C4: the bare `#` filter and dollar topics -/

/-- Claim C4: the filter `#` covers every topic with a non-empty,
non-dollar name; a dollar mismatch between two distinct names always
yields `false`; and `#` does not cover `$SYS/x`.  (Topic names are
non-empty by the model's validation invariant; a `Topic` with an empty
name is falsy in Python and is never covered by anything.) -/
theorem C4_hash_covers :
    (∀ t : Topic, t.name ≠ [] → t.is_dollar = false →
      (Topic.mkT "#").covers t = true)
    ∧ (∀ a b : Topic, a.name ≠ b.name → a.is_dollar ≠ b.is_dollar →
      a.covers b = false)
    ∧ (Topic.mkT "#").covers (Topic.mkT "$SYS/x") = false := by
  refine ⟨?_, ?_, by decide⟩
  · intro t h1 h2
    have hne : t.name.isEmpty = false := by
      simp [List.isEmpty_iff, h1]
    by_cases heq : (Topic.mkT "#").name = t.name
    · simp [Topic.covers, hne, heq]
    · obtain ⟨c, cs, hsplit⟩ : ∃ c cs, pySplit TOPIC_SEP t.name = c :: cs := by
        cases hp : pySplit TOPIC_SEP t.name with
        | nil => exact absurd hp (pySplit_ne_nil _ _)
        | cons c cs => exact ⟨c, cs, rfl⟩
      have hw : (Topic.mkT "#").is_wildcard = true := by decide
      have hd : (Topic.mkT "#").is_dollar = false := by decide
      have hsuf : WILDCARD_MULTI_LEVEL.isSuffixOf (Topic.mkT "#").name = true := by decide
      have hmy : pySplit TOPIC_SEP (Topic.mkT "#").name = [['#']] := by decide
      simp only [Topic.covers, hne, Bool.false_eq_true, if_false, if_neg heq, hw,
        Bool.not_true, hd, h2, Bool.false_and, Bool.and_false, Bool.or_self,
        hmy, hsplit, hsuf, Bool.not_false]
      have hlen : ¬ (c :: cs).length < [['#']].length := by simp
      rw [if_neg hlen]
      simp [coversWalk, WILDCARD_SINGLE_LEVEL, WILDCARD_MULTI_LEVEL]
  · intro a b hne hd
    by_cases hb : b.name.isEmpty
    · simp [Topic.covers, hb]
    · by_cases hw : a.is_wildcard
      · have hgate : (a.is_dollar && !b.is_dollar || b.is_dollar && !a.is_dollar) = true := by
          cases ha' : a.is_dollar <;> cases hb' : b.is_dollar <;> simp_all
        simp [Topic.covers, hb, hne, hw, hgate]
      · simp [Topic.covers, hb, hne, hw]

/-! ### Claim C5: the single-level wildcard `+` -/

/-- Claim C5: among concrete topics (non-empty, non-dollar, non-wildcard
names — the glossary's "topics", as opposed to filters), `+` covers
exactly those with no separator; `a/+/c` covers `a/b/c` but neither
`a/b/b/c` nor `a/c`; and when the compared topic is itself a wildcard, a
`+` filter segment never matches a paired segment that is literally `#`
(shown on the segment walk and on `a/+` vs `a/#`). -/
theorem C5_plus_covers :
    (∀ t : Topic, t.name ≠ [] → t.is_dollar = false → t.is_wildcard = false →
      ((Topic.mkT "+").covers t = true ↔ strIn [TOPIC_SEP] t.name = false))
    ∧ (Topic.mkT "a/+/c").covers (Topic.mkT "a/b/c") = true
    ∧ (Topic.mkT "a/+/c").covers (Topic.mkT "a/b/b/c") = false
    ∧ (Topic.mkT "a/+/c").covers (Topic.mkT "a/c") = false
    ∧ (∀ rest crest : List (List Char),
        coversWalk true (WILDCARD_SINGLE_LEVEL :: rest)
          (WILDCARD_MULTI_LEVEL :: crest) = false)
    ∧ (Topic.mkT "a/+").covers (Topic.mkT "a/#") = false := by
  refine ⟨?_, by decide, by decide, by decide, ?_, by decide⟩
  · intro t h1 h2 h3
    have hne : t.name.isEmpty = false := by simp [List.isEmpty_iff, h1]
    have hd : (Topic.mkT "+").is_dollar = false := by decide
    have hmy : pySplit TOPIC_SEP (Topic.mkT "+").name = [['+']] := by decide
    have hsuf : WILDCARD_MULTI_LEVEL.isSuffixOf (Topic.mkT "+").name = false := by decide
    have heq : ¬ (Topic.mkT "+").name = t.name := by
      intro e
      have hp : '+' ∈ t.name := by
        rw [← e]
        decide
      exact absurd ((is_wildcard_iff t).mpr (Or.inr hp)) (by simp [h3])
    constructor
    · intro hcov
      rcases (covers_true_elim hcov).2 with he | ⟨_, _, _, _, hlen, _⟩
      · exact absurd he heq
      · have hl1 : (pySplit TOPIC_SEP t.name).length = 1 := by
          have := hlen hsuf
          rw [hmy] at this
          simpa using this
        have hnm := pySplit_length_eq_one.mp hl1
        cases hx : strIn [TOPIC_SEP] t.name
        · rfl
        · exact absurd ((strIn_singleton _ _).mp hx) hnm
    · intro hx
      have hnm : TOPIC_SEP ∉ t.name := by
        intro hm
        rw [(strIn_singleton _ _).mpr hm] at hx
        cases hx
      have hcomp : pySplit TOPIC_SEP t.name = [t.name] := pySplit_not_mem hnm
      refine covers_true_intro hne (by decide) ?_ ?_ ?_ ?_ ?_
      · simp [hd, h2]
      · simp [hd]
      · rw [hmy, hcomp]
        simp
      · right
        rw [hmy, hcomp]
        simp
      · rw [hmy, hcomp]
        simp [coversWalk, WILDCARD_SINGLE_LEVEL, h3]
  · intro rest crest
    simp [coversWalk, WILDCARD_SINGLE_LEVEL, WILDCARD_MULTI_LEVEL]

/-! ### Claim C7: principal-set rules without a secret -/

/-- Claim C7: for a rule with a non-empty principal set and no stored
secret, a supplied principal that belongs (by user id or by group
intersection) gets `rule.allow`, one that does not belong gets
`not rule.allow`, and an absent principal is denied. -/
theorem C7_principal_set (a : ACL) (verify : List Char → List Char → Bool)
    (password : Option (List Char))
    (hne : a.users ≠ [] ∨ a.groups ≠ []) (hpw : a.password = none) :
    (∀ u : MqttUser, (u.pk ∈ a.users ∨ ∃ g ∈ a.groups, g ∈ u.group_pks) →
       a.has_permission verify (some u) password = a.allow)
    ∧ (∀ u : MqttUser, ¬ (u.pk ∈ a.users ∨ ∃ g ∈ a.groups, g ∈ u.group_pks) →
       a.has_permission verify (some u) password = (!a.allow))
    ∧ a.has_permission verify none password = false := by
  have hpt : pyTruthyStr a.password = false := by simp [hpw, pyTruthyStr]
  have hpub : a.is_public = false := by
    unfold ACL.is_public
    rcases hne with h | h
    · have : a.users.isEmpty = false := by simp [List.isEmpty_iff, h]
      simp [this]
    · have : a.groups.isEmpty = false := by simp [List.isEmpty_iff, h]
      simp [this]
  have husers : ∀ u : MqttUser,
      a.users.any (fun pk => pk == u.pk) = true ↔ u.pk ∈ a.users := by
    intro u
    simp [List.any_eq_true, beq_iff_eq]
  have hgroups : ∀ u : MqttUser,
      a.groups.any (fun g => u.group_pks.any (fun g' => g' == g)) = true ↔
        ∃ g ∈ a.groups, g ∈ u.group_pks := by
    intro u
    simp [List.any_eq_true, beq_iff_eq]
  refine ⟨?_, ?_, ?_⟩
  · intro u hu
    rcases hu with hm | hm
    · have h1 : a.users.any (fun pk => pk == u.pk) = true := (husers u).mpr hm
      simp [ACL.has_permission, hpub, h1, hpt]
    · have h2 : a.groups.any (fun g => u.group_pks.any (fun g' => g' == g)) = true :=
        (hgroups u).mpr hm
      cases h1 : a.users.any (fun pk => pk == u.pk) <;>
        simp [ACL.has_permission, hpub, h1, h2, hpt]
  · intro u hu
    push_neg at hu
    have h1 : a.users.any (fun pk => pk == u.pk) = false := by
      cases hx : a.users.any (fun pk => pk == u.pk)
      · rfl
      · exact absurd ((husers u).mp hx) hu.1
    have h2 : a.groups.any (fun g => u.group_pks.any (fun g' => g' == g)) = false := by
      cases hx : a.groups.any (fun g => u.group_pks.any (fun g' => g' == g))
      · rfl
      · obtain ⟨g, hg, hg'⟩ := (hgroups u).mp hx
        exact absurd hg' (hu.2 g hg)
    simp [ACL.has_permission, hpub, h1, h2, hpt]
  · simp [ACL.has_permission, hpub, hpt]

/-- Witness for C7 at a concrete rule and principals. -/
theorem C7_witness :
    ({ allow := true, topic := Topic.mkSaved "t", acc := 1,
       users := [42] } : ACL).has_permission (fun _ _ => false)
      (some ⟨7, [], false⟩) none = false := by
  have h := C7_principal_set
    { allow := true, topic := Topic.mkSaved "t", acc := 1, users := [42] }
    (fun _ _ => false) none (Or.inl (by decide)) rfl
  have h2 := h.2.1 ⟨7, [], false⟩ (by simp)
  simpa using h2

/-! ### Claim C8: empty store and both default flags false -/

/-- Claim C8: with an empty rule store, resolution returns no rule for any
topic and access kind; and with `MQTT_ACL_ALLOW = false` and
`MQTT_ACL_ALLOW_ANONIMOUS = false`, the default policy denies an
anonymous (or absent) principal that supplies no password. -/
theorem C8_default_deny (cfg : MqttSettings) (topicStore : List Topic)
    (arg : TopicArg) (acc : Nat) (user : Option MqttUser)
    (verify : List Char → List Char → Bool)
    (hallow : cfg.MQTT_ACL_ALLOW = some false)
    (hanon : cfg.MQTT_ACL_ALLOW_ANONIMOUS = some false)
    (huser : user = none ∨ ∃ u, user = some u ∧ u.is_anonymous = true) :
    (ACL.get_acl topicStore [] arg acc).1 = none
    ∧ ACL.get_default cfg topicStore [] verify acc user none = false := by
  constructor
  · unfold ACL.get_acl
    simp [pyMin]
  · unfold ACL.get_default
    rw [hallow, hanon]
    rcases huser with h | ⟨u, h, hanon'⟩
    · simp [h, pyTruthyStr]
    · simp [h, pyTruthyStr, hanon']

/-- Witness for C8 at a concrete anonymous request. -/
theorem C8_witness :
    (ACL.get_acl [] [] (.str "a/b".toList) PROTO_MQTT_ACC_SUS).1 = none
    ∧ ACL.get_default
        { MQTT_ACL_ALLOW := some false, MQTT_ACL_ALLOW_ANONIMOUS := some false }
        [] [] (fun _ _ => false) PROTO_MQTT_ACC_SUS none none = false :=
  C8_default_deny
    { MQTT_ACL_ALLOW := some false, MQTT_ACL_ALLOW_ANONIMOUS := some false }
    [] (.str "a/b".toList) PROTO_MQTT_ACC_SUS none (fun _ _ => false)
    rfl rfl (Or.inl rfl)

/-! ### Claim C10: `Topic.save` keeps the flag columns consistent -/

/-- Claim C10: a save with no `update_fields` restriction (absent or
empty, both falsy in Python) recomputes both derived columns, so after it
the stored `wildcard` flag equals "the name contains `#` or `+`" and the
stored `dollar` flag equals "the name starts with `$`". -/
theorem C10_save_flags (t : Topic) (uf : Option (List String))
    (h : uf = none ∨ uf = some []) :
    (t.save uf).name = t.name
    ∧ (t.save uf).wildcard = (t.save uf).is_wildcard
    ∧ (t.save uf).dollar = (t.save uf).is_dollar
    ∧ (t.save uf).wildcard =
        (strIn WILDCARD_MULTI_LEVEL t.name || strIn WILDCARD_SINGLE_LEVEL t.name)
    ∧ (t.save uf).dollar = TOPIC_BEGINNING_DOLLAR.isPrefixOf t.name := by
  rcases h with rfl | rfl <;>
    simp [Topic.save, Topic.is_wildcard, Topic.is_dollar]

/-- Witness for C10 at a concrete topic. -/
theorem C10_witness :
    ((Topic.mkT "a/#").save none).wildcard = ((Topic.mkT "a/#").save none).is_wildcard
    ∧ ((Topic.mkT "a/#").save none).dollar = ((Topic.mkT "a/#").save none).is_dollar :=
  ⟨(C10_save_flags (Topic.mkT "a/#") none (Or.inl rfl)).2.1,
   (C10_save_flags (Topic.mkT "a/#") none (Or.inl rfl)).2.2.1⟩

/-! ### Claim C6: exact rules dominate wildcards -/

theorem find?_exact_wf {l : List ACL} {T : Topic} {A : Nat} {a : ACL}
    (hWF : ACLStoreWF l) (ha : a ∈ l) (hname : a.topic.name = T.name)
    (hacc : a.acc = A) :
    l.find? (fun x => x.topic.name = T.name && x.acc == A) = some a := by
  induction l with
  | nil => cases ha
  | cons b rest ih =>
    rcases List.mem_cons.mp ha with rfl | hmem
    · have hpred : (decide (a.topic.name = T.name) && a.acc == A) = true := by
        simp [hname, hacc]
      simp [List.find?_cons, hpred]
    · have hkey := (List.pairwise_cons.mp hWF).1 a hmem
      have hb : (decide (b.topic.name = T.name) && b.acc == A) = false := by
        cases hx : (decide (b.topic.name = T.name) && b.acc == A)
        · rfl
        · simp only [Bool.and_eq_true, decide_eq_true_eq, beq_iff_eq] at hx
          rcases hkey with hk | hk
          · exact absurd (hx.1.trans hname.symm) hk
          · exact absurd (hx.2.trans hacc.symm) hk
      rw [List.find?_cons, hb]
      exact ih (List.pairwise_cons.mp hWF).2 hmem

/-- Claim C6: when an exact rule keyed by `(topic, acc)` is stored,
`get_acl` returns it regardless of wildcard rules (the store satisfies
the database uniqueness constraint); concretely, with rules on `a/#`
(allow) and `a/b` (deny) for subscribe, `a/b` resolves to the exact deny
rule and `a/c` to the `a/#` allow rule. -/
theorem C6_exact_dominates :
    (∀ (topicStore : List Topic) (aclStore : List ACL) (T : Topic) (A : Nat)
       (a : ACL), ACLStoreWF aclStore → a ∈ aclStore →
       a.topic.name = T.name → a.acc = A →
       (ACL.get_acl topicStore aclStore (.topicObj T) A).1 = some a)
    ∧ (ACL.get_acl [Topic.mkSaved "a/#", Topic.mkSaved "a/b"]
        [{ allow := true, topic := Topic.mkSaved "a/#", acc := 1 },
         { allow := false, topic := Topic.mkSaved "a/b", acc := 1 }]
        (.str "a/b".toList) 1).1 =
      some { allow := false, topic := Topic.mkSaved "a/b", acc := 1 }
    ∧ (ACL.get_acl [Topic.mkSaved "a/#", Topic.mkSaved "a/b"]
        [{ allow := true, topic := Topic.mkSaved "a/#", acc := 1 },
         { allow := false, topic := Topic.mkSaved "a/b", acc := 1 }]
        (.str "a/c".toList) 1).1 =
      some { allow := true, topic := Topic.mkSaved "a/#", acc := 1 } := by
  refine ⟨?_, by decide, by decide⟩
  intro topicStore aclStore T A a hWF ha hname hacc
  unfold ACL.get_acl
  simp only [find?_exact_wf hWF ha hname hacc, pyMin, List.foldl_nil]

/-- Witness for C6 at a concrete store. -/
theorem C6_witness :
    (ACL.get_acl [Topic.mkSaved "a/b"]
      [{ allow := false, topic := Topic.mkSaved "a/b", acc := 1 }]
      (.topicObj (Topic.mkSaved "a/b")) 1).1 =
    some { allow := false, topic := Topic.mkSaved "a/b", acc := 1 } :=
  C6_exact_dominates.1 [Topic.mkSaved "a/b"]
    [{ allow := false, topic := Topic.mkSaved "a/b", acc := 1 }]
    (Topic.mkSaved "a/b") 1
    { allow := false, topic := Topic.mkSaved "a/b", acc := 1 }
    (by simp [ACLStoreWF]) (by simp) rfl rfl

/-! ### Claim C3: resolution is not read-only over the topic store -/

/-- Claim C3 as frozen is false on the code: `get_acl` on a topic string
that has no stored `Topic` row runs `get_or_create`, which inserts one. -/
theorem C3_counterexample :
    (ACL.get_acl [] [] (.str "a".toList) PROTO_MQTT_ACC_SUS).2 =
      [(Topic.mk "a".toList false false).save none]
    ∧ (ACL.get_acl [] [] (.str "a".toList) PROTO_MQTT_ACC_SUS).2 ≠
      ([] : List Topic) := by decide

/-- Claim C3, amended: `get_acl` never touches the set of stored ACL
rules (it only reads them), and it leaves the stored Topics unchanged
when called with a `Topic` instance or with a string whose topic is
already stored; but a string (or bytes) argument naming no stored topic
makes `get_or_create` insert a fresh `Topic` row for it. -/
theorem C3_amended :
    (∀ (topicStore : List Topic) (aclStore : List ACL) (T : Topic) (A : Nat),
      (ACL.get_acl topicStore aclStore (.topicObj T) A).2 = topicStore)
    ∧ (∀ (topicStore : List Topic) (aclStore : List ACL) (s : List Char) (A : Nat),
      (∃ t ∈ topicStore, t.name = s) →
      (ACL.get_acl topicStore aclStore (.str s) A).2 = topicStore)
    ∧ (∀ (topicStore : List Topic) (aclStore : List ACL) (s : List Char) (A : Nat),
      (∀ t ∈ topicStore, t.name ≠ s) →
      (ACL.get_acl topicStore aclStore (.str s) A).2 =
        topicStore ++ [(Topic.mk s false false).save none]) := by
  refine ⟨?_, ?_, ?_⟩
  · intro topicStore aclStore T A
    rfl
  · intro topicStore aclStore s A hmem
    obtain ⟨t, ht, hname⟩ := hmem
    cases hf : topicStore.find? (fun t => t.name = s) with
    | none =>
      rw [List.find?_eq_none] at hf
      exact absurd (by simp [hname]) (hf t ht)
    | some t' =>
      simp [ACL.get_acl, topicGetOrCreate, hf]
  · intro topicStore aclStore s A hmem
    have hf : topicStore.find? (fun t => t.name = s) = none :=
      List.find?_eq_none.mpr (fun t ht => by simp [hmem t ht])
    simp [ACL.get_acl, topicGetOrCreate, hf]

/-- Witness for C3's amended statement at a concrete store. -/
theorem C3_witness :
    (ACL.get_acl [Topic.mkSaved "a"] [] (.str "a".toList) PROTO_MQTT_ACC_SUS).2 =
      [Topic.mkSaved "a"] :=
  C3_amended.2.1 [Topic.mkSaved "a"] [] "a".toList PROTO_MQTT_ACC_SUS
    ⟨Topic.mkSaved "a", by simp, by decide⟩

/-! ### Claim C1: most-specific selection among wildcard candidates -/

theorem covers_name_eq {a b t u : Topic} (h1 : a.name = b.name) (h2 : t.name = u.name) :
    a.covers t = b.covers u := by
  unfold Topic.covers Topic.is_wildcard Topic.is_dollar
  rw [h1, h2]

theorem pyMin_eq_foldl (h : ACL) (t : List ACL) :
    pyMin (h :: t) = some (t.foldl minStep h) := rfl

theorem foldl_minStep_mem (l : List ACL) (b : ACL) :
    l.foldl minStep b = b ∨ l.foldl minStep b ∈ l := by
  induction l generalizing b with
  | nil => exact Or.inl rfl
  | cons x xs ih =>
    rw [List.foldl_cons]
    rcases ih (minStep b x) with h | h
    · rw [h]
      unfold minStep
      split
      · exact Or.inr (List.mem_cons_self x xs)
      · exact Or.inl rfl
    · exact Or.inr (List.mem_cons_of_mem x h)

theorem foldl_minStep_most_specific (R : ACL) (l : List ACL) (b : ACL)
    (hW : ∀ x ∈ l, x.topic.name.isEmpty = false ∧ x.topic.is_wildcard = true)
    (hWb : b.topic.name.isEmpty = false ∧ b.topic.is_wildcard = true)
    (hP : ∀ x ∈ l, x.topic.name ≠ R.topic.name →
      x.topic.covers R.topic = true ∧ R.topic.covers x.topic = false)
    (hPb : b.topic.name ≠ R.topic.name →
      b.topic.covers R.topic = true ∧ R.topic.covers b.topic = false)
    (hstart : b.topic.name = R.topic.name ∨ R ∈ l) :
    (l.foldl minStep b).topic.name = R.topic.name := by
  induction l generalizing b with
  | nil =>
    rcases hstart with h | h
    · exact h
    · cases h
  | cons x xs ih =>
    rw [List.foldl_cons]
    have hstep : (minStep b x).topic.name = R.topic.name ∨ R ∈ xs := by
      rcases hstart with hbR | hmem
      · unfold minStep
        split
        · rename_i hlt
          left
          by_contra hxR
          have hx := hP x (List.mem_cons_self x xs) hxR
          unfold ACL.lt Topic.lt at hlt
          rw [hWb.1, hWb.2] at hlt
          simp only [Bool.false_or, Bool.not_true, Bool.false_eq_true, if_false] at hlt
          have : R.topic.covers x.topic = true := by
            rw [covers_name_eq hbR.symm (rfl : x.topic.name = x.topic.name)]
            exact hlt
          rw [this] at hx
          exact absurd hx.2 (by simp)
        · exact Or.inl hbR
      · rcases List.mem_cons.mp hmem with rfl | hmem'
        · unfold minStep
          split
          · exact Or.inl rfl
          · rename_i hlt
            left
            by_contra hbR
            have hb := hPb hbR
            unfold ACL.lt Topic.lt at hlt
            rw [hWb.1, hWb.2] at hlt
            simp only [Bool.false_or, Bool.not_true, Bool.false_eq_true, if_false] at hlt
            exact absurd hb.1 hlt
        · exact Or.inr hmem'
    have hWb' : (minStep b x).topic.name.isEmpty = false ∧
        (minStep b x).topic.is_wildcard = true := by
      unfold minStep
      split
      · exact hW x (List.mem_cons_self x xs)
      · exact hWb
    have hPb' : (minStep b x).topic.name ≠ R.topic.name →
        (minStep b x).topic.covers R.topic = true ∧
        R.topic.covers (minStep b x).topic = false := by
      unfold minStep
      split
      · exact hP x (List.mem_cons_self x xs)
      · exact hPb
    exact ih (minStep b x) (fun y hy => hW y (List.mem_cons_of_mem x hy)) hWb'
      (fun y hy => hP y (List.mem_cons_of_mem x hy)) hPb' hstep

theorem acl_eq_of_key_eq {l : List ACL} (hWF : ACLStoreWF l) {a b : ACL}
    (ha : a ∈ l) (hb : b ∈ l) (hname : a.topic.name = b.topic.name)
    (hacc : a.acc = b.acc) : a = b := by
  by_contra hne
  have hsym : Symmetric (fun a b : ACL =>
      a.topic.name ≠ b.topic.name ∨ a.acc ≠ b.acc) := by
    intro x y h
    rcases h with h | h
    · exact Or.inl (Ne.symm h)
    · exact Or.inr (Ne.symm h)
  rcases hWF.forall hsym ha hb hne with h | h
  · exact h hname
  · exact h hacc

/-- Claim C1 as frozen is false on the code: with wildcard rules on `a/+`
and `+/b` for subscribe and no exact rule, resolving `a/b` returns the
first-stored rule (`a/+`), yet the other covering candidate's topic
(`+/b`) does not cover it — no single most specific candidate exists and
`min()` silently picks by enumeration order. -/
theorem C1_counterexample :
    (ACL.get_acl
        [Topic.mkSaved "a/+", Topic.mkSaved "+/b", Topic.mkSaved "a/b"]
        [{ allow := true, topic := Topic.mkSaved "a/+", acc := 1 },
         { allow := true, topic := Topic.mkSaved "+/b", acc := 1 }]
        (.topicObj (Topic.mkSaved "a/b")) 1).1 =
      some { allow := true, topic := Topic.mkSaved "a/+", acc := 1 }
    ∧ ({ allow := true, topic := Topic.mkSaved "+/b", acc := 1 } : ACL) ∈
        wildcardCandidates
          [{ allow := true, topic := Topic.mkSaved "a/+", acc := 1 },
           { allow := true, topic := Topic.mkSaved "+/b", acc := 1 }]
          (Topic.mkSaved "a/b") 1
    ∧ (Topic.mkSaved "+/b").name ≠ (Topic.mkSaved "a/+").name
    ∧ (Topic.mkSaved "+/b").covers (Topic.mkSaved "a/+") = false := by
  refine ⟨by decide, by decide, by decide, by decide⟩

/-- Claim C1, amended: when no exact rule exists and the covering
candidates contain a strictly most specific rule `R` — every other
candidate's topic covers `R`'s topic and `R`'s topic covers no other
candidate's topic — `get_acl` returns `R` (the store satisfying the DB
uniqueness constraint, with non-empty names and consistent flag columns).
Without such a strictly most specific candidate the returned rule need
not be minimal, as the counterexample shows. -/
theorem C1_amended (topicStore : List Topic) (aclStore : List ACL)
    (T : Topic) (A : Nat) (R : ACL)
    (hWF : ACLStoreWF aclStore)
    (hnames : ∀ x ∈ aclStore, x.topic.name.isEmpty = false)
    (hflags : ∀ x ∈ aclStore, x.topic.wildcard = x.topic.is_wildcard)
    (hnoexact : ∀ x ∈ aclStore, ¬(x.topic.name = T.name ∧ x.acc = A))
    (hR : R ∈ wildcardCandidates aclStore T A)
    (hspec : ∀ X ∈ wildcardCandidates aclStore T A,
      X.topic.name ≠ R.topic.name →
      X.topic.covers R.topic = true ∧ R.topic.covers X.topic = false) :
    (ACL.get_acl topicStore aclStore (.topicObj T) A).1 = some R := by
  have hsub : ∀ x ∈ wildcardCandidates aclStore T A,
      x ∈ aclStore ∧ x.topic.wildcard = true ∧ x.acc = A := by
    intro x hx
    unfold wildcardCandidates at hx
    have h1 := (List.mem_filter.mp hx).1
    have h2 := List.mem_filter.mp h1
    refine ⟨h2.1, ?_, ?_⟩
    · have := h2.2
      simp only [Bool.and_eq_true, beq_iff_eq] at this
      exact this.1
    · have := h2.2
      simp only [Bool.and_eq_true, beq_iff_eq] at this
      exact this.2
  have hfind : aclStore.find? (fun x => x.topic.name = T.name && x.acc == A) = none := by
    refine List.find?_eq_none.mpr (fun x hx => ?_)
    intro hpred
    simp only [Bool.and_eq_true, decide_eq_true_eq, beq_iff_eq] at hpred
    exact hnoexact x hx hpred
  have hW : ∀ x ∈ wildcardCandidates aclStore T A,
      x.topic.name.isEmpty = false ∧ x.topic.is_wildcard = true := by
    intro x hx
    obtain ⟨hmem, hwild, _⟩ := hsub x hx
    exact ⟨hnames x hmem, (hflags x hmem) ▸ hwild⟩
  obtain ⟨h, t, hct⟩ : ∃ h t, wildcardCandidates aclStore T A = h :: t := by
    cases hc : wildcardCandidates aclStore T A with
    | nil => rw [hc] at hR; cases hR
    | cons h t => exact ⟨h, t, rfl⟩
  have hRc := hR
  rw [hct] at hRc
  have hfold : (t.foldl minStep h).topic.name = R.topic.name := by
    refine foldl_minStep_most_specific R t h
      (fun y hy => hW y (hct ▸ List.mem_cons_of_mem h hy))
      (hW h (hct ▸ List.mem_cons_self h t))
      (fun y hy => hspec y (hct ▸ List.mem_cons_of_mem h hy))
      (hspec h (hct ▸ List.mem_cons_self h t)) ?_
    rcases List.mem_cons.mp hRc with rfl | hmem
    · exact Or.inl rfl
    · exact Or.inr hmem
  have hfmem : t.foldl minStep h ∈ wildcardCandidates aclStore T A := by
    rcases foldl_minStep_mem t h with he | hm
    · rw [he, hct]; exact List.mem_cons_self h t
    · rw [hct]; exact List.mem_cons_of_mem h hm
  have heq : t.foldl minStep h = R := by
    obtain ⟨hm1, _, hacc1⟩ := hsub _ hfmem
    obtain ⟨hm2, _, hacc2⟩ := hsub R hR
    exact acl_eq_of_key_eq hWF hm1 hm2 hfold (hacc1.trans hacc2.symm)
  show (ACL.get_acl topicStore aclStore (.topicObj T) A).1 = some R
  unfold ACL.get_acl
  simp only [hfind]
  show pyMin (wildcardCandidates aclStore T A) = some R
  rw [hct, pyMin_eq_foldl, heq]

/-- Witness for C1's amended statement: rules on `a/#` and `a/+`, where
`a/+` is strictly most specific for `a/b`, resolve to the `a/+` rule. -/
theorem C1_witness :
    (ACL.get_acl [Topic.mkSaved "a/#", Topic.mkSaved "a/+"]
      [{ allow := true, topic := Topic.mkSaved "a/#", acc := 1 },
       { allow := false, topic := Topic.mkSaved "a/+", acc := 1 }]
      (.topicObj (Topic.mkSaved "a/b")) 1).1 =
    some { allow := false, topic := Topic.mkSaved "a/+", acc := 1 } :=
  C1_amended [Topic.mkSaved "a/#", Topic.mkSaved "a/+"]
    [{ allow := true, topic := Topic.mkSaved "a/#", acc := 1 },
     { allow := false, topic := Topic.mkSaved "a/+", acc := 1 }]
    (Topic.mkSaved "a/b") 1
    { allow := false, topic := Topic.mkSaved "a/+", acc := 1 }
    (by unfold ACLStoreWF; exact (by decide))
    (by decide) (by decide) (by decide) (by decide) (by decide)

end DjangoMqtt
